import Mathlib

/-!
Verification of `brian2/utils/filetools.py`.

The file is shallowly embedded: paths and file contents are lists of
characters, the filesystem is an explicit state (an association list of
files and a list of existing directories), and every `os`-level operation
used by the source (`os.path.join`, `os.path.dirname`, `os.path.normpath`,
`os.path.split`, `os.path.exists`, `os.mkdir`, `os.makedirs`, `os.chdir`,
`os.dup`, `os.dup2`, Python's `str.replace`) is modelled explicitly.
Fallible operations return the updated state together with an optional
Python exception, mirroring the fact that a Python exception propagates
while earlier side effects on the real filesystem persist.
-/

namespace FileTools

/-- POSIX path separator, `os.sep` on the platforms brian2 targets. -/
def sep : Char := '/'

/-- Paths and file contents are character lists (Python strings). -/
abbrev Str := List Char

/-- Coercion from Lean string literals to the embedded string type. -/
def str (s : String) : Str := s.data

/-- Index one past the last separator of `p`: Python's `p.rfind('/') + 1`
(`0` when `p` has no separator), as used by `posixpath.split`. -/
def splitIdx (p : Str) : Nat :=
  p.length - (p.reverse.takeWhile (fun c => ¬ c = sep)).length

/-- Python's `s.rstrip('/')`: drop trailing separators. -/
def rstripSep (l : Str) : Str :=
  (l.reverse.dropWhile (fun c => c = sep)).reverse

/-- `posixpath.split(p)`: split `p` at the last separator; the head keeps
no trailing separators unless it consists of separators only. -/
def psplit (p : Str) : Str × Str :=
  let head := p.take (splitIdx p)
  let tail := p.drop (splitIdx p)
  (if head ≠ [] ∧ ¬ head.all (fun c => c = sep) then rstripSep head else head, tail)

/-- `os.path.dirname(p)` (POSIX): the head component of `posixpath.split`. -/
def dirname (p : Str) : Str := (psplit p).1

/-- `posixpath.join(a, b)` for the two-argument calls made by the source:
an absolute `b` discards `a`; otherwise `b` is appended, inserting a
separator unless `a` is empty or already ends with one. -/
def pyJoin (a b : Str) : Str :=
  if b.head? = some sep then b
  else if a = [] ∨ a.getLast? = some sep then a ++ b
  else a ++ sep :: b

/-- One step of `posixpath.normpath`'s component loop: skip empty and `.`
components, append ordinary components, and let `..` pop the previous
component when one is available. -/
def normStep (initialSlashes : Nat) (acc : List Str) (comp : Str) : List Str :=
  if comp = [] ∨ comp = ['.'] then acc
  else if comp ≠ ['.', '.'] ∨ (initialSlashes = 0 ∧ acc = []) ∨
      acc.getLast? = some ['.', '.'] then acc ++ [comp]
  else if acc ≠ [] then acc.dropLast else acc

/-- `posixpath.normpath(p)`: collapse separators, `.` and `..` components,
preserving one or exactly two leading separators. -/
def normpath (p : Str) : Str :=
  if p = [] then ['.']
  else
    let initialSlashes : Nat :=
      if p.head? = some sep then
        if [sep, sep].isPrefixOf p ∧ ¬ [sep, sep, sep].isPrefixOf p then 2 else 1
      else 0
    let newComps := (p.splitOn sep).foldl (normStep initialSlashes) []
    let joined := List.replicate initialSlashes sep ++ List.intercalate [sep] newComps
    if joined = [] then ['.'] else joined

/-- Left-to-right scan of Python's `s.replace(pat, rep)` for a non-empty
pattern: at each position either the pattern matches and is replaced (the
scan resumes after it) or one character is copied.  Each step consumes at
least one character, so `s.length` units of fuel always suffice; the
`0`-fuel fallback is unreachable when the scan starts with enough fuel. -/
def pyReplaceFuel (pat rep : Str) : Nat → Str → Str
  | _, [] => []
  | 0, s => s
  | Nat.succ fuel, c :: rest =>
    if pat.isPrefixOf (c :: rest) then
      rep ++ pyReplaceFuel pat rep fuel ((c :: rest).drop pat.length)
    else c :: pyReplaceFuel pat rep fuel rest

/-- Python's `s.replace(pat, rep)`: replace non-overlapping occurrences of
`pat` left to right (all occurrences, not only a leading one — this is
exactly the operation `copy_directory` uses on path strings). An empty
pattern inserts `rep` before every character and at the end. -/
def pyReplace (s pat rep : Str) : Str :=
  if pat = [] then rep ++ s.foldr (fun c acc => c :: (rep ++ acc)) []
  else pyReplaceFuel pat rep s.length s

/-- Python exceptions that the modelled operations can raise
(`recursionError` is Python's recursion limit, reachable only when a
recursive call runs out of fuel — never from the entry points, which
supply sufficient fuel). -/
inductive PyErr where
  | fileNotFoundError
  | fileExistsError
  | isADirectoryError
  | notADirectoryError
  | attributeError
  | typeError
  | valueError
  | badFileDescriptor
  | recursionError
  deriving DecidableEq

/-- First-match lookup in an association list. -/
def lookupAssoc {α β : Type} [DecidableEq α] : List (α × β) → α → Option β
  | [], _ => none
  | (k', v) :: t, k => if k' = k then some v else lookupAssoc t k

/-- Update the first binding of `k` in an association list, appending a
new binding when none exists. -/
def setAssoc {α β : Type} [DecidableEq α] : List (α × β) → α → β → List (α × β)
  | [], k, v => [(k, v)]
  | (k', v') :: t, k, v => if k' = k then (k, v) :: t else (k', v') :: setAssoc t k v

/-- Filesystem state: regular files with their contents, plus the set of
existing directories. -/
structure FS where
  files : List (Str × Str)
  dirs : List Str
  deriving DecidableEq

/-- Content of the regular file at `p`, when one exists. -/
def lookupFile (fs : FS) (p : Str) : Option Str := lookupAssoc fs.files p

/-- Create or overwrite the regular file at `p` with content `c`. -/
def setFile (fs : FS) (p c : Str) : FS := { fs with files := setAssoc fs.files p c }

/-- `os.path.exists(p)`: a directory or regular file exists at `p`.  The
empty path never exists (`stat("")` fails with `ENOENT`). -/
def pexists (fs : FS) (p : Str) : Prop :=
  p ≠ [] ∧ (p ∈ fs.dirs ∨ (lookupFile fs p).isSome = true)

instance (fs : FS) (p : Str) : Decidable (pexists fs p) := by
  unfold pexists; infer_instance

/-- `os.path.isdir(p)`. -/
def isdir (fs : FS) (p : Str) : Prop := p ≠ [] ∧ p ∈ fs.dirs

instance (fs : FS) (p : Str) : Decidable (isdir fs p) := by
  unfold isdir; infer_instance

/-- The head/tail pair `os.makedirs` works on: `posixpath.split(name)`,
re-split once when the tail is empty (trailing separator). -/
def psplitFix (name : Str) : Str × Str :=
  if (psplit name).2 = [] then psplit (psplit name).1 else psplit name

/-- The parent directory the kernel resolves before creating or opening
`name`: `name` without trailing separators and without its final
component. -/
def parentDir (name : Str) : Str := (psplitFix name).1

/-- Path resolution can pass through `name`'s parent: the parent is the
current working directory (which always exists) or an existing
directory. -/
def parentOk (fs : FS) (name : Str) : Prop :=
  parentDir name = [] ∨ isdir fs (parentDir name)

instance (fs : FS) (name : Str) : Decidable (parentOk fs name) := by
  unfold parentOk; infer_instance

/-- `os.mkdir(name)`: fails with `FileNotFoundError` on the empty path;
resolving the path requires the parent directory to exist and be a
directory (`NotADirectoryError` when a regular file sits there,
`FileNotFoundError` when nothing does); fails with `FileExistsError` when
something already exists at `name`; otherwise records the new
directory. -/
def mkdir (fs : FS) (name : Str) : FS × Option PyErr :=
  if name = [] then (fs, some PyErr.fileNotFoundError)
  else if parentOk fs name then
    (if pexists fs name then (fs, some PyErr.fileExistsError)
     else ({ fs with dirs := name :: fs.dirs }, none))
  else if (lookupFile fs (parentDir name)).isSome = true then
    (fs, some PyErr.notADirectoryError)
  else (fs, some PyErr.fileNotFoundError)

/-- The `try: mkdir(name) except OSError: if not exist_ok or not isdir(name):
raise` tail of `os.makedirs`. -/
def mkdirSwallow (fs : FS) (name : Str) (exist_ok : Bool) : FS × Option PyErr :=
  match mkdir fs name with
  | (fs', none) => (fs', none)
  | (fs', some e) =>
    if ¬ exist_ok = true ∨ ¬ isdir fs' name then (fs', some e) else (fs', none)

/-- Fuel-indexed recursion of `os.makedirs`: recursively ensure the split
head exists (swallowing a `FileExistsError` from the recursion), return
early when the split tail is `.` (`curdir`), then `mkdir(name)` with the
`exist_ok` swallow.  The head of the split is strictly shorter than
`name`, so `name.length + 1` units of fuel always suffice. -/
def makedirsFuel : Nat → FS → Str → Bool → FS × Option PyErr
  | 0, fs, _, _ => (fs, some PyErr.recursionError)
  | Nat.succ fuel, fs, name, exist_ok =>
    if (psplitFix name).1 ≠ [] ∧ (psplitFix name).2 ≠ [] ∧
        ¬ pexists fs (psplitFix name).1 then
      match makedirsFuel fuel fs (psplitFix name).1 true with
      | (fs', oe) =>
        if oe = none ∨ oe = some PyErr.fileExistsError then
          if (psplitFix name).2 = ['.'] then (fs', none)
          else mkdirSwallow fs' name exist_ok
        else (fs', oe)
    else mkdirSwallow fs name exist_ok

/-- `os.makedirs(name, exist_ok=...)`. -/
def makedirs (fs : FS) (name : Str) (exist_ok : Bool) : FS × Option PyErr :=
  makedirsFuel (name.length + 1) fs name exist_ok

/-- `ensure_directory(d)` from `filetools.py`: create `d` with `os.makedirs`
when `os.path.exists(d)` is false, and return `d`. -/
def ensure_directory (fs : FS) (d : Str) : FS × Option PyErr × Str :=
  if pexists fs d then (fs, none, d)
  else
    match makedirs fs d false with
    | (fs', oe) => (fs', oe, d)

/-- `ensure_directory_of_file(f)` from `filetools.py`: take `d =
os.path.dirname(f)`, create it with `os.makedirs` when it does not exist,
and return `d`. -/
def ensure_directory_of_file (fs : FS) (f : Str) : FS × Option PyErr × Str :=
  let d := dirname f
  if pexists fs d then (fs, none, d)
  else
    match makedirs fs d false with
    | (fs', oe) => (fs', oe, d)

/-- Process state for `in_directory`: the filesystem plus the process-wide
current working directory. -/
structure Proc where
  fs : FS
  cwd : Str
  deriving DecidableEq

/-- `os.chdir(d)`: set the working directory when `d` is a directory, fail
with `NotADirectoryError` when `d` exists but is not a directory, and with
`FileNotFoundError` otherwise, leaving the state unchanged on failure. -/
def chdir (st : Proc) (d : Str) : Proc × Option PyErr :=
  if isdir st.fs d then ({ st with cwd := d }, none)
  else if pexists st.fs d then (st, some PyErr.notADirectoryError)
  else (st, some PyErr.fileNotFoundError)

/-- A run of `with in_directory(newDir): body`.  `__init__` records
`os.getcwd()`, `__enter__` is `os.chdir(new_dir)` (on failure the body and
`__exit__` do not run), and `__exit__` is `os.chdir(self.orig_dir)`, which
runs whether or not the body raised; an error raised by `__exit__` itself
takes precedence over the body's error, which otherwise propagates. -/
def withInDirectory (st : Proc) (newDir : Str) (body : Proc → Proc × Option PyErr) :
    Proc × Option PyErr :=
  let origDir := st.cwd
  match chdir st newDir with
  | (st₁, some e) => (st₁, some e)
  | (st₁, none) =>
    let bres := body st₁
    let eres := chdir bres.1 origDir
    (eres.1, match eres.2 with | some e => some e | none => bres.2)

/-- The `to` argument of `stdout_redirected`: an open file-like object
carrying a file descriptor, a file-like object whose `fileno()` raises
`ValueError` (e.g. a closed file), or a path string, which has no `fileno`
attribute at all, so `to.fileno()` raises `AttributeError`. -/
inductive ToArg where
  | fileLike (fd : Nat)
  | closedFile
  | pathStr (p : Str)

/-- `to.fileno()`. -/
def filenoOf : ToArg → Except PyErr Nat
  | .fileLike fd => .ok fd
  | .closedFile => .error PyErr.valueError
  | .pathStr _ => .error PyErr.attributeError

/-- Observable descriptor-level events of a `stdout_redirected` run, in
program order. -/
inductive Op where
  | dupOp (fd new : Nat)
  | flush
  | dup2 (src dst : Nat)
  | closeOp (fd : Nat)
  | bodyRun
  deriving DecidableEq

/-- Descriptor-level state: the file-descriptor table maps descriptor
numbers to open file descriptions (identified by a number: two descriptors
with the same description share a destination bit-for-bit), plus the
filesystem. -/
structure Sys where
  table : List (Nat × Nat)
  fs : FS
  deriving DecidableEq

/-- Open file description currently designated by descriptor `fd`. -/
def lookupFd (t : List (Nat × Nat)) (fd : Nat) : Option Nat := lookupAssoc t fd

/-- A descriptor number not in use, returned by the modelled `os.dup`. -/
def freshFd (t : List (Nat × Nat)) : Nat :=
  (t.map (fun e => e.1)).foldr max 0 + 1

/-- Closing descriptor `fd` removes its table entry. -/
def eraseFd : List (Nat × Nat) → Nat → List (Nat × Nat)
  | [], _ => []
  | e :: t, fd => if e.1 = fd then eraseFd t fd else e :: eraseFd t fd

/-- `sys.__stdout__.fileno()`: standard output is descriptor 1. -/
def stdoutFd : Nat := 1

/-- A run of `with stdout_redirected(to): body` from `filetools.py`.

Control flow mirrors the source: duplicate descriptor 1 into a held
descriptor `copied` (`os.fdopen(os.dup(stdout_fd), 'wb')`), flush, then
`try: os.dup2(to.fileno(), stdout_fd) except ValueError: ...`.  Only
`ValueError` is caught (for which the source would `open(to, 'wb')` — with
a closed-file argument `open` itself raises `TypeError`); an
`AttributeError` from a path string propagates, so the body never runs and
no file is opened.  Any exit of the enclosing `with os.fdopen(...)` block
closes `copied`.  After a completed body, the `finally` block flushes and
duplicates `copied` back onto descriptor 1, then `copied` is closed and
the body's error, if any, propagates.  The body is the protected block; it
acts on the filesystem and may raise, but does not touch the descriptor
table (it is single-threaded straight-line user code). -/
def stdout_redirected (sys : Sys) (toArg : ToArg) (body : FS → FS × Option PyErr) :
    Sys × List Op × Option PyErr :=
  match lookupFd sys.table stdoutFd with
  | none => (sys, [], some PyErr.badFileDescriptor)
  | some d =>
    let copied := freshFd sys.table
    let sys₁ : Sys := { sys with table := (copied, d) :: sys.table }
    let tr₁ : List Op := [Op.dupOp stdoutFd copied, Op.flush]
    let setup : Sys × List Op × Option PyErr :=
      match filenoOf toArg with
      | .ok tfd =>
        match lookupFd sys₁.table tfd with
        | some td => ({ sys₁ with table := setAssoc sys₁.table stdoutFd td },
            [Op.dup2 tfd stdoutFd], none)
        | none => (sys₁, [], some PyErr.badFileDescriptor)
      | .error PyErr.valueError => (sys₁, [], some PyErr.typeError)
      | .error e => (sys₁, [], some e)
    match setup with
    | (sys₂, trS, some e) =>
      ({ sys₂ with table := eraseFd sys₂.table copied },
        tr₁ ++ trS ++ [Op.closeOp copied], some e)
    | (sys₂, trS, none) =>
      let bres := body sys₂.fs
      let sys₃ : Sys := { sys₂ with fs := bres.1 }
      match lookupFd sys₃.table copied with
      | some cd =>
        let sys₄ : Sys := { sys₃ with table := setAssoc sys₃.table stdoutFd cd }
        ({ sys₄ with table := eraseFd sys₄.table copied },
          tr₁ ++ trS ++ [Op.bodyRun, Op.flush, Op.dup2 copied stdoutFd, Op.closeOp copied],
          bres.2)
      | none =>
        ({ sys₃ with table := eraseFd sys₃.table copied },
          tr₁ ++ trS ++ [Op.bodyRun, Op.flush, Op.closeOp copied],
          some PyErr.badFileDescriptor)

/-- `sourcebase = os.path.normpath(source) + os.path.sep` in
`copy_directory`. -/
def sourceBase (source : Str) : Str := normpath source ++ [sep]

/-- `fullname = os.path.normpath(os.path.join(root, filename))` for a walk
entry `(root, filename)`. -/
def fullnameOf (e : Str × Str) : Str := normpath (pyJoin e.1 e.2)

/-- `relname = fullname.replace(sourcebase, '')`. -/
def relnameOf (source : Str) (e : Str × Str) : Str :=
  pyReplace (fullnameOf e) (sourceBase source) []

/-- `tgtname = os.path.join(target, relname)`. -/
def tgtnameOf (source target : Str) (e : Str × Str) : Str :=
  pyJoin target (relnameOf source e)

/-- `open(p).read()`: the content of the regular file at `p`, or the
exception `open` raises (a directory or a missing file). -/
def readFile (fs : FS) (p : Str) : Except PyErr Str :=
  match lookupFile fs p with
  | some c => .ok c
  | none =>
    .error (if p ∈ fs.dirs then PyErr.isADirectoryError else PyErr.fileNotFoundError)

/-- `open(p, 'w').write(c)`: resolving `p` requires its parent directory
to exist and be a directory (`NotADirectoryError` when a regular file sits
there, `FileNotFoundError` when nothing does); opening a directory for
writing fails with `IsADirectoryError` and the empty path with
`FileNotFoundError`; otherwise create or overwrite the regular file at
`p`. -/
def writeFile (fs : FS) (p : Str) (c : Str) : FS × Option PyErr :=
  if parentOk fs p then
    (if p ∈ fs.dirs then (fs, some PyErr.isADirectoryError)
     else if p = [] then (fs, some PyErr.fileNotFoundError)
     else (setFile fs p c, none))
  else if (lookupFile fs (parentDir p)).isSome = true then
    (fs, some PyErr.notADirectoryError)
  else (fs, some PyErr.fileNotFoundError)

/-- Accumulated state of `copy_directory`'s loop: the filesystem, the
`relnames` list being built, the byte-write events performed so far (in
order), and the first exception raised, if any (an exception aborts the
loop and propagates). -/
structure CopyAcc where
  fs : FS
  relnames : List Str
  writes : List (Str × Str)
  err : Option PyErr
  deriving DecidableEq

/-- The body of `copy_directory`'s inner loop for one walked file
`(root, filename)`: compute `fullname`, `relname` (via `str.replace`) and
`tgtname`, append `relname`, ensure the destination's directory, read the
source file, skip when a file with equal content already sits at
`tgtname`, and otherwise write the content there. -/
def copyStep (source target : Str) (acc : CopyAcc) (e : Str × Str) : CopyAcc :=
  match acc.err with
  | some _ => acc
  | none =>
    let fullname := fullnameOf e
    let relname := relnameOf source e
    let relnames := acc.relnames ++ [relname]
    let tgtname := pyJoin target relname
    match ensure_directory_of_file acc.fs tgtname with
    | (fs₁, some er, _) => { acc with fs := fs₁, relnames := relnames, err := some er }
    | (fs₁, none, _) =>
      match readFile fs₁ fullname with
      | .error er => { acc with fs := fs₁, relnames := relnames, err := some er }
      | .ok contents =>
        if pexists fs₁ tgtname then
          match readFile fs₁ tgtname with
          | .error er => { acc with fs := fs₁, relnames := relnames, err := some er }
          | .ok c' =>
            if c' = contents then { acc with fs := fs₁, relnames := relnames }
            else
              match writeFile fs₁ tgtname contents with
              | (fs₂, none) => { acc with fs := fs₂, relnames := relnames, writes := acc.writes ++ [(tgtname, contents)] }
              | (fs₂, some er) => { acc with fs := fs₂, relnames := relnames, err := some er }
        else
          match writeFile fs₁ tgtname contents with
          | (fs₂, none) => { acc with fs := fs₂, relnames := relnames, writes := acc.writes ++ [(tgtname, contents)] }
          | (fs₂, some er) => { acc with fs := fs₂, relnames := relnames, err := some er }

/-- `copy_directory(source, target)` from `filetools.py`.  `os.walk`'s
traversal is passed in as the list `walk` of `(root, filename)` pairs in
traversal order (the walk's order is operating-system dependent; a valid
walk lists exactly the files under `source`, each root being `source` or a
path below it). -/
def copy_directory (fs : FS) (walk : List (Str × Str)) (source target : Str) : CopyAcc :=
  walk.foldl (copyStep source target) ⟨fs, [], [], none⟩

/-- The pattern stripped by `copy_directory` occurs in `s` only as its
leading prefix: it is a prefix of `s` and matches at no later position.
This is the situation in which Python's `replace` actually computes a
relative path. -/
def onlyLeadingOccurrence (s pat : Str) : Prop :=
  pat <+: s ∧ ∀ i, i ≤ s.length → 0 < i → ¬ pat <+: s.drop i

instance (s pat : Str) : Decidable (onlyLeadingOccurrence s pat) := by
  unfold onlyLeadingOccurrence; infer_instance

/-- `p` lies within the source subtree as `copy_directory` sees it: below
the normalized source, or equal to the normalized source itself. -/
def underSource (source p : Str) : Prop :=
  sourceBase source <+: p ∨ p = normpath source

instance (source p : Str) : Decidable (underSource source p) := by
  unfold underSource; infer_instance

/-- A well-formed relative target directory: non-empty, not absolute, no
trailing separator. -/
def wellFormedTarget (target : Str) : Prop :=
  target ≠ [] ∧ target.head? ≠ some sep ∧ target.getLast? ≠ some sep

instance (target : Str) : Decidable (wellFormedTarget target) := by
  unfold wellFormedTarget; infer_instance

/-- A well-formed relative name: non-empty, not absolute, no trailing
separator. -/
def wellFormedRel (r : Str) : Prop :=
  r ≠ [] ∧ r.head? ≠ some sep ∧ r.getLast? ≠ some sep

instance (r : Str) : Decidable (wellFormedRel r) := by
  unfold wellFormedRel; infer_instance

/-- No regular file blocks the path `p`: at every strict ancestor of `p`
(every prefix of `p` followed by a separator) no regular file sits.  A
regular file at an ancestor makes the real `os.mkdir` and `open(..., 'w')`
fail with `NotADirectoryError`. -/
def noFileAncestor (fs : FS) (p : Str) : Prop :=
  ∀ i, i < p.length → (p.drop i).head? = some sep → lookupFile fs (p.take i) = none

instance (fs : FS) (p : Str) : Decidable (noFileAncestor fs p) := by
  unfold noFileAncestor; infer_instance

/-! ### General-purpose lemmas about the embedded operations -/

/-- Bridge between the boolean `isPrefixOf` used in executable code and
the `<+:` relation used in proofs. -/
theorem prefixOf_bridge (l₁ l₂ : Str) : l₁.isPrefixOf l₂ = true ↔ l₁ <+: l₂ :=
  List.isPrefixOf_iff_prefix

/-- `take` produces a prefix (wrapper with a scan-safe name). -/
theorem takeIsPre {α : Type} (n : Nat) (l : List α) : l.take n <+: l :=
  List.take_prefix n l

/-- A non-empty prefix determines the head. -/
theorem head_of_isPre {α : Type} (a p : List α) (h : a <+: p) (ha : a ≠ []) :
    p.head? = a.head? := by
  obtain ⟨t, ht⟩ := h
  cases a with
  | nil => exact absurd rfl ha
  | cons x l =>
    rw [← ht]
    rfl

theorem lookupAssoc_setAssoc_self {α β : Type} [DecidableEq α]
    (l : List (α × β)) (k : α) (v : β) : lookupAssoc (setAssoc l k v) k = some v := by
  induction l with
  | nil => simp [setAssoc, lookupAssoc]
  | cons hd tl ih =>
    by_cases h : hd.1 = k
    · simp [setAssoc, h, lookupAssoc]
    · simp [setAssoc, h, lookupAssoc, ih]

theorem lookupAssoc_setAssoc_ne {α β : Type} [DecidableEq α]
    (l : List (α × β)) (k : α) (v : β) (k' : α) (h : k' ≠ k) :
    lookupAssoc (setAssoc l k v) k' = lookupAssoc l k' := by
  induction l with
  | nil =>
    simp only [setAssoc, lookupAssoc]
    exact if_neg (fun hh => h hh.symm)
  | cons hd tl ih =>
    simp only [setAssoc]
    by_cases hk : hd.1 = k
    · rw [if_pos hk]
      simp only [lookupAssoc]
      rw [if_neg (fun hh => h hh.symm), if_neg (fun hh : hd.1 = k' => h (hh.symm.trans hk))]
    · rw [if_neg hk]
      simp only [lookupAssoc]
      by_cases hk' : hd.1 = k'
      · rw [if_pos hk', if_pos hk']
      · rw [if_neg hk', if_neg hk', ih]

theorem lookupFile_setFile_self (fs : FS) (p c : Str) :
    lookupFile (setFile fs p c) p = some c := by
  simp [lookupFile, setFile, lookupAssoc_setAssoc_self]

theorem lookupFile_setFile_ne (fs : FS) (p c q : Str) (h : q ≠ p) :
    lookupFile (setFile fs p c) q = lookupFile fs q := by
  simp [lookupFile, setFile, lookupAssoc_setAssoc_ne _ _ _ _ h]

theorem setFile_dirs (fs : FS) (p c : Str) : (setFile fs p c).dirs = fs.dirs := rfl

theorem lookupFd_eraseFd_self (t : List (Nat × Nat)) (fd : Nat) :
    lookupFd (eraseFd t fd) fd = none := by
  induction t with
  | nil => rfl
  | cons hd tl ih =>
    simp only [eraseFd]
    by_cases h : hd.1 = fd
    · rw [if_pos h]
      exact ih
    · rw [if_neg h]
      simp only [lookupFd, lookupAssoc] at ih ⊢
      rw [if_neg h]
      exact ih

theorem lookupFd_eraseFd_ne (t : List (Nat × Nat)) (fd fd' : Nat) (h : fd' ≠ fd) :
    lookupFd (eraseFd t fd) fd' = lookupFd t fd' := by
  induction t with
  | nil => rfl
  | cons hd tl ih =>
    simp only [eraseFd]
    by_cases hk : hd.1 = fd
    · rw [if_pos hk]
      simp only [lookupFd, lookupAssoc] at ih ⊢
      rw [ih, if_neg (fun hh : hd.1 = fd' => h (hh.symm.trans hk))]
    · rw [if_neg hk]
      simp only [lookupFd, lookupAssoc] at ih ⊢
      by_cases hk' : hd.1 = fd'
      · rw [if_pos hk', if_pos hk']
      · rw [if_neg hk', if_neg hk', ih]

theorem lookupFd_lt_freshFd (t : List (Nat × Nat)) (k d : Nat)
    (h : lookupFd t k = some d) : k < freshFd t := by
  induction t with
  | nil => simp [lookupFd, lookupAssoc] at h
  | cons hd tl ih =>
    simp only [lookupFd, lookupAssoc] at h
    by_cases hk : hd.1 = k
    · subst hk
      simp only [freshFd, List.map, List.foldr]
      omega
    · rw [if_neg hk] at h
      have := ih h
      simp only [freshFd, List.map, List.foldr] at this ⊢
      omega

theorem dropWhile_head_false {α : Type} (p : α → Bool) (l : List α) (c : α) (t : List α)
    (h : l.dropWhile p = c :: t) : p c = false := by
  induction l with
  | nil => simp [List.dropWhile] at h
  | cons a l ih =>
    rw [List.dropWhile_cons] at h
    by_cases hp : p a = true
    · rw [if_pos hp] at h
      exact ih h
    · rw [if_neg hp] at h
      cases h
      simpa using hp

theorem splitIdx_eq_zero_of_no_sep (f : Str) (h : sep ∉ f) : splitIdx f = 0 := by
  unfold splitIdx
  cases hD : f.reverse.dropWhile (fun c => ¬ c = sep) with
  | nil =>
    have hT := List.takeWhile_append_dropWhile (p := fun c => (¬ c = sep : Bool))
      (l := f.reverse)
    rw [hD, List.append_nil] at hT
    rw [hT]
    simp
  | cons c t =>
    exfalso
    have hc := dropWhile_head_false _ _ _ _ hD
    have hcs : c = sep := by simpa using hc
    have hmem : c ∈ f.reverse := by
      have hsub := (List.dropWhile_suffix (p := fun c => (¬ c = sep : Bool))
        (l := f.reverse)).subset
      exact hsub (hD ▸ List.mem_cons_self c t)
    rw [List.mem_reverse] at hmem
    exact h (hcs ▸ hmem)

theorem dirname_eq_nil_of_no_sep (f : Str) (h : sep ∉ f) : dirname f = [] := by
  unfold dirname psplit
  rw [splitIdx_eq_zero_of_no_sep f h]
  simp [rstripSep]

/-! ### C10: `ensure_directory_of_file` on a bare filename -/

/-- C10: for a file path with no directory component, the derived parent
directory is the empty string, `os.path.exists('')` is false, so directory
creation is attempted on the empty path and fails with the OS-level
`FileNotFoundError` — the current directory is not treated as present. -/
theorem ensure_directory_of_file_bare_filename (fs : FS) (f : Str) (h : sep ∉ f) :
    dirname f = [] ∧
    ensure_directory_of_file fs f = (fs, some PyErr.fileNotFoundError, []) := by
  have hd := dirname_eq_nil_of_no_sep f h
  refine ⟨hd, ?_⟩
  show (let d := dirname f
        if pexists fs d then (fs, none, d)
        else match makedirs fs d false with | (fs', oe) => (fs', oe, d)) = _
  rw [hd]
  have hne : ¬ pexists fs ([] : Str) := fun hpe => hpe.1 rfl
  simp only [if_neg hne]
  rfl

/-- Witness for C10 at the bare filename `c.txt`. -/
theorem ensure_directory_of_file_bare_filename_witness :
    sep ∉ str "c.txt" ∧
    (dirname (str "c.txt") = [] ∧
     ensure_directory_of_file ⟨[], [str "a"]⟩ (str "c.txt") =
       (⟨[], [str "a"]⟩, some PyErr.fileNotFoundError, [])) :=
  ⟨by decide, ensure_directory_of_file_bare_filename ⟨[], [str "a"]⟩ (str "c.txt") (by decide)⟩

/-! ### C7: `in_directory` when entering fails -/

/-- C7: when the requested directory does not exist (or is not a
directory), acquisition fails with the OS-level error from `os.chdir`, the
body and the restore step never run, and the process state — in
particular the working directory — is unchanged. -/
theorem in_directory_enter_failure (st : Proc) (newDir : Str)
    (body : Proc → Proc × Option PyErr) (h : ¬ isdir st.fs newDir) :
    withInDirectory st newDir body =
      (st, some (if pexists st.fs newDir then PyErr.notADirectoryError
                 else PyErr.fileNotFoundError)) := by
  by_cases hp : pexists st.fs newDir
  · simp [withInDirectory, chdir, h, hp]
  · simp [withInDirectory, chdir, h, hp]

/-- Witness for C7: entering a non-existent directory fails and leaves the
state untouched. -/
theorem in_directory_enter_failure_witness :
    (¬ isdir (FS.mk [] [str "h"]) (str "nope")) ∧
    withInDirectory ⟨⟨[], [str "h"]⟩, str "h"⟩ (str "nope") (fun s => (s, none)) =
      (⟨⟨[], [str "h"]⟩, str "h"⟩,
        some (if pexists (FS.mk [] [str "h"]) (str "nope") then PyErr.notADirectoryError
              else PyErr.fileNotFoundError)) :=
  ⟨by decide,
   in_directory_enter_failure ⟨⟨[], [str "h"]⟩, str "h"⟩ (str "nope")
     (fun s => (s, none)) (by decide)⟩

/-! ### C3: `in_directory` restores the working directory -/

/-- C3: a `with in_directory(newDir)` block records the working directory,
switches to `newDir`, and on any exit path — the body finishing normally
or raising — restores the recorded working directory, regardless of the
working-directory changes made by the body (the body must merely leave the
original directory in existence); the body's error, if any, propagates. -/
theorem in_directory_restores_cwd (st : Proc) (newDir : Str)
    (body : Proc → Proc × Option PyErr)
    (henter : isdir st.fs newDir)
    (hexit : isdir ((body { st with cwd := newDir }).1).fs st.cwd) :
    ((withInDirectory st newDir body).1).cwd = st.cwd ∧
    (withInDirectory st newDir body).2 = (body { st with cwd := newDir }).2 := by
  refine ⟨?_, ?_⟩ <;> simp [withInDirectory, chdir, henter, hexit]

/-- Witness for C3: a body that changes directory again and raises; the
original working directory is restored and the error propagates. -/
theorem in_directory_restores_cwd_witness :
    isdir (FS.mk [] [str "a", str "b", str "h"]) (str "a") ∧
    isdir (FS.mk [] [str "a", str "b", str "h"]) (str "h") ∧
    (((withInDirectory ⟨⟨[], [str "a", str "b", str "h"]⟩, str "h"⟩ (str "a")
        (fun s => (⟨s.fs, str "b"⟩, some PyErr.valueError))).1).cwd = str "h" ∧
     (withInDirectory ⟨⟨[], [str "a", str "b", str "h"]⟩, str "h"⟩ (str "a")
        (fun s => (⟨s.fs, str "b"⟩, some PyErr.valueError))).2 = some PyErr.valueError) :=
  ⟨by decide, by decide, by
    have h := in_directory_restores_cwd ⟨⟨[], [str "a", str "b", str "h"]⟩, str "h"⟩ (str "a")
      (fun s => (⟨s.fs, str "b"⟩, some PyErr.valueError)) (by decide) (by decide)
    exact ⟨h.1, h.2⟩⟩

/-! ### C1: `stdout_redirected` with a path-string argument -/

/-- C1: calling `stdout_redirected` with a path string raises
`AttributeError` — a `str` has no `fileno` method and only `ValueError`
is caught — so, contrary to the spec, the file at the path is never
opened or written, standard output is never redirected (the held
duplicate is closed again and descriptor 1 still designates its original
destination), and the protected block never runs (the marker file the
block would create is absent). -/
theorem stdout_redirected_path_argument_raises :
    stdout_redirected ⟨[(1, 10)], ⟨[], []⟩⟩ (ToArg.pathStr (str "out.txt"))
        (fun fs => (setFile fs (str "marker") (str "ran"), none)) =
      (⟨[(1, 10)], ⟨[], []⟩⟩, [Op.dupOp 1 2, Op.flush, Op.closeOp 2],
        some PyErr.attributeError) ∧
    lookupFile (stdout_redirected ⟨[(1, 10)], ⟨[], []⟩⟩ (ToArg.pathStr (str "out.txt"))
        (fun fs => (setFile fs (str "marker") (str "ran"), none))).1.fs (str "out.txt") =
      none ∧
    lookupFile (stdout_redirected ⟨[(1, 10)], ⟨[], []⟩⟩ (ToArg.pathStr (str "out.txt"))
        (fun fs => (setFile fs (str "marker") (str "ran"), none))).1.fs (str "marker") =
      none := by
  decide

/-! ### C4: `stdout_redirected` restores standard output on every exit -/

/-- C4: once the block of `stdout_redirected` has started, every exit —
the body finishing normally or raising — flushes, duplicates the held
descriptor back onto the standard-output slot (restoring the original
open file description `d` bit-for-bit), and then closes the held
duplicate unconditionally; the body's error, if any, propagates. -/
theorem stdout_redirected_restores_stdout (sys : Sys) (d tfd td : Nat)
    (body : FS → FS × Option PyErr)
    (h1 : lookupFd sys.table stdoutFd = some d)
    (ht : lookupFd sys.table tfd = some td) :
    (stdout_redirected sys (ToArg.fileLike tfd) body).2.2 = (body sys.fs).2 ∧
    lookupFd ((stdout_redirected sys (ToArg.fileLike tfd) body).1).table stdoutFd =
      some d ∧
    lookupFd ((stdout_redirected sys (ToArg.fileLike tfd) body).1).table
      (freshFd sys.table) = none ∧
    ((stdout_redirected sys (ToArg.fileLike tfd) body).1).fs = (body sys.fs).1 ∧
    (stdout_redirected sys (ToArg.fileLike tfd) body).2.1 =
      [Op.dupOp stdoutFd (freshFd sys.table), Op.flush, Op.dup2 tfd stdoutFd, Op.bodyRun,
       Op.flush, Op.dup2 (freshFd sys.table) stdoutFd, Op.closeOp (freshFd sys.table)] := by
  have hlt1 : stdoutFd < freshFd sys.table := lookupFd_lt_freshFd _ _ _ h1
  have hltT : tfd < freshFd sys.table := lookupFd_lt_freshFd _ _ _ ht
  have hne1 : freshFd sys.table ≠ stdoutFd := fun hh => by omega
  have hneT : freshFd sys.table ≠ tfd := fun hh => by omega
  have hlk2 : lookupFd ((freshFd sys.table, d) :: sys.table) tfd = some td := by
    simp only [lookupFd, lookupAssoc]
    rw [if_neg hneT]
    exact ht
  have hlk3 : lookupFd (setAssoc ((freshFd sys.table, d) :: sys.table) stdoutFd td)
      (freshFd sys.table) = some d := by
    show lookupAssoc (setAssoc ((freshFd sys.table, d) :: sys.table) stdoutFd td)
      (freshFd sys.table) = some d
    rw [lookupAssoc_setAssoc_ne _ _ _ _ hne1]
    simp [lookupAssoc]
  have hfinal1 : lookupFd (eraseFd (setAssoc (setAssoc ((freshFd sys.table, d) :: sys.table)
      stdoutFd td) stdoutFd d) (freshFd sys.table)) stdoutFd = some d := by
    rw [lookupFd_eraseFd_ne _ _ _ (Ne.symm hne1)]
    show lookupAssoc (setAssoc (setAssoc ((freshFd sys.table, d) :: sys.table)
      stdoutFd td) stdoutFd d) stdoutFd = some d
    rw [lookupAssoc_setAssoc_self]
  have hfinal2 : lookupFd (eraseFd (setAssoc (setAssoc ((freshFd sys.table, d) :: sys.table)
      stdoutFd td) stdoutFd d) (freshFd sys.table)) (freshFd sys.table) = none :=
    lookupFd_eraseFd_self _ _
  refine ⟨?_, ?_, ?_, ?_, ?_⟩ <;>
    simp [stdout_redirected, h1, filenoOf, hlk2, hlk3, hfinal1, hfinal2]

/-- Witness for C4 at a concrete table and a body that raises. -/
theorem stdout_redirected_restores_stdout_witness :
    lookupFd [(1, 10), (3, 11)] stdoutFd = some 10 ∧
    lookupFd [(1, 10), (3, 11)] 3 = some 11 ∧
    ((stdout_redirected ⟨[(1, 10), (3, 11)], ⟨[], []⟩⟩ (ToArg.fileLike 3)
        (fun fs => (fs, some PyErr.valueError))).2.2 = some PyErr.valueError ∧
     lookupFd ((stdout_redirected ⟨[(1, 10), (3, 11)], ⟨[], []⟩⟩ (ToArg.fileLike 3)
        (fun fs => (fs, some PyErr.valueError))).1).table stdoutFd = some 10 ∧
     lookupFd ((stdout_redirected ⟨[(1, 10), (3, 11)], ⟨[], []⟩⟩ (ToArg.fileLike 3)
        (fun fs => (fs, some PyErr.valueError))).1).table
          (freshFd [(1, 10), (3, 11)]) = none) :=
  ⟨by decide, by decide, by
    have h := stdout_redirected_restores_stdout ⟨[(1, 10), (3, 11)], ⟨[], []⟩⟩ 10 3 11
      (fun fs => (fs, some PyErr.valueError)) (by decide) (by decide)
    exact ⟨h.1, h.2.1, h.2.2.1⟩⟩

/-! ### Structure of `psplit` and `makedirs` -/

theorem take_splitIdx_eq (x : Str) :
    x.take (splitIdx x) = (x.reverse.dropWhile (fun c => ¬ c = sep)).reverse := by
  obtain ⟨T, hTdef⟩ : ∃ T, T = x.reverse.takeWhile (fun c => ¬ c = sep) := ⟨_, rfl⟩
  obtain ⟨D, hDdef⟩ : ∃ D, D = x.reverse.dropWhile (fun c => ¬ c = sep) := ⟨_, rfl⟩
  rw [← hDdef]
  have hTD : T ++ D = x.reverse := by
    rw [hTdef, hDdef]
    exact List.takeWhile_append_dropWhile _ _
  have hx : x = D.reverse ++ T.reverse := by
    rw [← List.reverse_append, hTD, List.reverse_reverse]
  have hlen : splitIdx x = D.reverse.length := by
    have h0 : splitIdx x = x.length - T.length := by
      rw [hTdef]
      rfl
    have hl := congrArg List.length hTD
    simp only [List.length_append, List.length_reverse] at hl
    simp only [List.length_reverse]
    omega
  rw [hlen]
  conv_lhs => rw [hx]
  exact List.take_left _ _

theorem drop_splitIdx_eq (x : Str) :
    x.drop (splitIdx x) = (x.reverse.takeWhile (fun c => ¬ c = sep)).reverse := by
  obtain ⟨T, hTdef⟩ : ∃ T, T = x.reverse.takeWhile (fun c => ¬ c = sep) := ⟨_, rfl⟩
  obtain ⟨D, hDdef⟩ : ∃ D, D = x.reverse.dropWhile (fun c => ¬ c = sep) := ⟨_, rfl⟩
  rw [← hTdef]
  have hTD : T ++ D = x.reverse := by
    rw [hTdef, hDdef]
    exact List.takeWhile_append_dropWhile _ _
  have hx : x = D.reverse ++ T.reverse := by
    rw [← List.reverse_append, hTD, List.reverse_reverse]
  have hlen : splitIdx x = D.reverse.length := by
    have h0 : splitIdx x = x.length - T.length := by
      rw [hTdef]
      rfl
    have hl := congrArg List.length hTD
    simp only [List.length_append, List.length_reverse] at hl
    simp only [List.length_reverse]
    omega
  rw [hlen]
  conv_lhs => rw [hx]
  exact List.drop_left _ _

theorem take_splitIdx_getLast (x : Str) (h : x.take (splitIdx x) ≠ []) :
    (x.take (splitIdx x)).getLast? = some sep := by
  rw [take_splitIdx_eq] at h ⊢
  cases hD : x.reverse.dropWhile (fun c => ¬ c = sep) with
  | nil => rw [hD] at h; simp at h
  | cons c t =>
    rw [List.getLast?_reverse]
    have hc := dropWhile_head_false _ _ _ _ hD
    have hcs : c = sep := by simpa using hc
    simp [hcs]

theorem rstripSep_isPre (l : Str) : rstripSep l <+: l := by
  unfold rstripSep
  obtain ⟨t, ht⟩ := List.dropWhile_suffix (p := fun c => (decide (c = sep))) (l := l.reverse)
  refine ⟨t.reverse, ?_⟩
  rw [← List.reverse_append, ht, List.reverse_reverse]

theorem rstripSep_spec (l : Str) : ∃ k, l = rstripSep l ++ List.replicate k sep := by
  obtain ⟨T, hTdef⟩ : ∃ T, T = l.reverse.takeWhile (fun c => c = sep) := ⟨_, rfl⟩
  obtain ⟨D, hDdef⟩ : ∃ D, D = l.reverse.dropWhile (fun c => c = sep) := ⟨_, rfl⟩
  have hTD : T ++ D = l.reverse := by
    rw [hTdef, hDdef]
    exact List.takeWhile_append_dropWhile _ _
  have hT : T = List.replicate T.length sep := by
    apply List.eq_replicate_of_mem
    intro b hb
    rw [hTdef] at hb
    have hmb := List.mem_takeWhile_imp hb
    simpa using hmb
  have hR : rstripSep l = D.reverse := by
    rw [rstripSep, hDdef]
  refine ⟨T.length, ?_⟩
  rw [hR, ← List.reverse_replicate, ← hT, ← List.reverse_append, hTD, List.reverse_reverse]

theorem rstripSep_getLast (l : Str) (h : rstripSep l ≠ []) :
    (rstripSep l).getLast? ≠ some sep := by
  unfold rstripSep at h ⊢
  cases hD : l.reverse.dropWhile (fun c => c = sep) with
  | nil => rw [hD] at h; simp at h
  | cons c t =>
    rw [List.getLast?_reverse]
    have hc := dropWhile_head_false _ _ _ _ hD
    simpa using hc

theorem psplit_fst_isPre (x : Str) : (psplit x).1 <+: x := by
  simp only [psplit]
  split
  · exact (rstripSep_isPre _).trans (takeIsPre _ _)
  · exact takeIsPre _ _

theorem psplit_snd_eq (x : Str) : (psplit x).2 = x.drop (splitIdx x) := by
  simp only [psplit]

theorem psplit_fst_length_le (x : Str) : (psplit x).1.length ≤ x.length :=
  (psplit_fst_isPre x).length_le

theorem psplit_fst_length_lt (x : Str) (h : (psplit x).2 ≠ []) :
    (psplit x).1.length < x.length := by
  rw [psplit_snd_eq] at h
  have hidx : splitIdx x < x.length := by
    by_contra hge
    push_neg at hge
    exact h (List.drop_eq_nil_of_le hge)
  have h1 : (psplit x).1.length ≤ (x.take (splitIdx x)).length := by
    simp only [psplit]
    split
    · exact (rstripSep_isPre _).length_le
    · exact le_rfl
  have h2 : (x.take (splitIdx x)).length ≤ splitIdx x := by
    simp [List.length_take]
  omega

theorem psplit_fst_sep_or (x : Str) (h : (psplit x).1 ≠ []) :
    (psplit x).1 ++ [sep] <+: x ∨ (psplit x).1.head? = some sep := by
  by_cases hc : x.take (splitIdx x) ≠ [] ∧
      ¬ (x.take (splitIdx x)).all (fun c => c = sep) = true
  · have hfst : (psplit x).1 = rstripSep (x.take (splitIdx x)) := by
      simp only [psplit]
      rw [if_pos hc]
    left
    rw [hfst] at h ⊢
    obtain ⟨k, hk⟩ := rstripSep_spec (x.take (splitIdx x))
    cases k with
    | zero =>
      exfalso
      simp only [List.replicate, List.append_nil] at hk
      have hlast := take_splitIdx_getLast x hc.1
      rw [hk] at hlast
      exact rstripSep_getLast _ h hlast
    | succ k' =>
      obtain ⟨R, hRdef⟩ : ∃ R, R = rstripSep (x.take (splitIdx x)) := ⟨_, rfl⟩
      rw [← hRdef] at hk h ⊢
      have h1 : R ++ [sep] <+: x.take (splitIdx x) := by
        rw [hk, List.replicate_succ]
        exact ⟨List.replicate k' sep, by simp⟩
      exact h1.trans (takeIsPre _ _)
  · have hfst : (psplit x).1 = x.take (splitIdx x) := by
      simp only [psplit]
      rw [if_neg hc]
    right
    rw [hfst] at h ⊢
    push_neg at hc
    have hall := hc h
    cases hx : x.take (splitIdx x) with
    | nil => exact absurd hx h
    | cons c t =>
      rw [hx] at hall
      simp only [List.all_cons, Bool.and_eq_true, decide_eq_true_eq] at hall
      simp [hall.1]

theorem psplitFix_fst_isPre (x : Str) : (psplitFix x).1 <+: x := by
  unfold psplitFix
  split
  · exact (psplit_fst_isPre _).trans (psplit_fst_isPre x)
  · exact psplit_fst_isPre x

theorem psplitFix_fst_length_lt (x : Str) (h : (psplitFix x).2 ≠ []) :
    (psplitFix x).1.length < x.length := by
  unfold psplitFix at h ⊢
  by_cases hc : (psplit x).2 = []
  · rw [if_pos hc] at h ⊢
    exact lt_of_lt_of_le (psplit_fst_length_lt _ h) (psplit_fst_length_le x)
  · rw [if_neg hc] at h ⊢
    exact psplit_fst_length_lt x h

theorem psplitFix_fst_sep_or (x : Str) (h : (psplitFix x).1 ≠ []) :
    (psplitFix x).1 ++ [sep] <+: x ∨ (psplitFix x).1.head? = some sep := by
  unfold psplitFix at h ⊢
  by_cases hc : (psplit x).2 = []
  · rw [if_pos hc] at h ⊢
    rcases psplit_fst_sep_or _ h with h1 | h1
    · exact Or.inl (h1.trans (psplit_fst_isPre x))
    · exact Or.inr h1
  · rw [if_neg hc] at h ⊢
    exact psplit_fst_sep_or x h

theorem drop_splitIdx_ne_nil (x : Str) (hne : x ≠ []) (hlast : x.getLast? ≠ some sep) :
    x.drop (splitIdx x) ≠ [] := by
  rw [drop_splitIdx_eq]
  cases hx : x.reverse with
  | nil => exact absurd (List.reverse_eq_nil_iff.mp hx) hne
  | cons c t =>
    have hc : x.getLast? = some c := by
      rw [← List.head?_reverse, hx]
      rfl
    have hcs : ¬ c = sep := fun h => hlast (h ▸ hc)
    simp [List.takeWhile_cons, hcs]

/-- For a path with no trailing separator, the resolution parent is its
`dirname`. -/
theorem parentDir_eq_dirname (x : Str) (hne : x ≠ []) (hlast : x.getLast? ≠ some sep) :
    parentDir x = dirname x := by
  unfold parentDir psplitFix
  rw [if_neg (by rw [psplit_snd_eq]; exact drop_splitIdx_ne_nil x hne hlast)]
  rfl

theorem psplitFix_snd_ne_nil (x : Str) (hH : (psplitFix x).1 ≠ [])
    (hhead : (psplitFix x).1.head? ≠ some sep) : (psplitFix x).2 ≠ [] := by
  unfold psplitFix at hH hhead ⊢
  by_cases hc : (psplit x).2 = []
  · rw [if_pos hc] at hH hhead ⊢
    intro htl
    obtain ⟨Y, hY⟩ : ∃ Y, Y = (psplit x).1 := ⟨_, rfl⟩
    rw [← hY] at hH hhead htl
    have hYne : Y ≠ [] := by
      intro h
      subst h
      exact hH (List.prefix_nil.mp (psplit_fst_isPre []))
    have hdrop : Y.drop (splitIdx Y) = [] := by
      rw [← psplit_snd_eq]
      exact htl
    have hidx : Y.length ≤ splitIdx Y := by
      by_contra hlt
      push_neg at hlt
      have := congrArg List.length hdrop
      simp only [List.length_drop, List.length_nil] at this
      omega
    have htake : Y.take (splitIdx Y) = Y := List.take_of_length_le hidx
    have hlastY : Y.getLast? = some sep := by
      have h1 := take_splitIdx_getLast Y (by rw [htake]; exact hYne)
      rw [htake] at h1
      exact h1
    have hxcases : Y = rstripSep (x.take (splitIdx x)) ∨
        (Y = x.take (splitIdx x) ∧
         (x.take (splitIdx x) = [] ∨
          (x.take (splitIdx x)).all (fun c => c = sep) = true)) := by
      rw [hY]
      simp only [psplit]
      by_cases hcc : x.take (splitIdx x) ≠ [] ∧
          ¬ (x.take (splitIdx x)).all (fun c => c = sep) = true
      · rw [if_pos hcc]
        exact Or.inl rfl
      · rw [if_neg hcc]
        refine Or.inr ⟨rfl, ?_⟩
        by_cases h1 : x.take (splitIdx x) = []
        · exact Or.inl h1
        · right
          by_contra h2
          exact hcc ⟨h1, h2⟩
    rcases hxcases with hcase | ⟨hcase, hdeg⟩
    · have h1 : rstripSep (x.take (splitIdx x)) ≠ [] := by
        rw [← hcase]
        exact hYne
      have h2 : (rstripSep (x.take (splitIdx x))).getLast? = some sep := by
        rw [← hcase]
        exact hlastY
      exact rstripSep_getLast _ h1 h2
    · rcases hdeg with h1 | hall
      · exact hYne (hcase.trans h1)
      · rw [← hcase] at hall
        have hYall : ∀ c ∈ Y, c = sep := by
          intro c hcY
          have := List.all_eq_true.mp hall c hcY
          simpa using this
        have hYhead : Y.head? = some sep := by
          cases hYc : Y with
          | nil => exact absurd hYc hYne
          | cons a t =>
            have ha := hYall a (by rw [hYc]; exact List.mem_cons_self _ _)
            rw [ha]
            rfl
        apply hhead
        rw [← head_of_isPre _ Y (psplit_fst_isPre Y) hH]
        exact hYhead
  · rw [if_neg hc]
    exact hc

/-- The bounded `noFileAncestor` check covers every ancestor prefix. -/
theorem noFileAncestor_spec (fs : FS) (p : Str) (h : noFileAncestor fs p) :
    ∀ q, q ++ [sep] <+: p → lookupFile fs q = none := by
  intro q hq
  obtain ⟨t, ht⟩ := hq
  have hp : p = q ++ sep :: t := by
    rw [← ht]
    simp
  have hlen : q.length < p.length := by
    rw [hp, List.length_append, List.length_cons]
    omega
  have hget : (p.drop q.length).head? = some sep := by
    rw [hp, List.drop_left]
    rfl
  have htake : p.take q.length = q := by
    rw [hp]
    exact List.take_left q (sep :: t)
  have h1 := h q.length hlen hget
  rw [htake] at h1
  exact h1

theorem psplitFix_snd_subset (x : Str) : ∀ c ∈ (psplitFix x).2, c ∈ x := by
  intro c hcm
  unfold psplitFix at hcm
  by_cases h2 : (psplit x).2 = []
  · rw [if_pos h2, psplit_snd_eq] at hcm
    have h3 : c ∈ (psplit x).1 := List.drop_subset _ _ hcm
    exact (psplit_fst_isPre x).subset h3
  · rw [if_neg h2, psplit_snd_eq] at hcm
    exact List.drop_subset _ _ hcm

theorem mkdir_spec (fs : FS) (name : Str) :
    (∃ e, mkdir fs name = (fs, some e)) ∨
    (name ≠ [] ∧ ¬ pexists fs name ∧
      mkdir fs name = ({ fs with dirs := name :: fs.dirs }, none)) := by
  unfold mkdir
  by_cases h1 : name = []
  · rw [if_pos h1]
    exact Or.inl ⟨_, rfl⟩
  · rw [if_neg h1]
    by_cases hpar : parentOk fs name
    · rw [if_pos hpar]
      by_cases h2 : pexists fs name
      · rw [if_pos h2]
        exact Or.inl ⟨_, rfl⟩
      · rw [if_neg h2]
        exact Or.inr ⟨h1, h2, rfl⟩
    · rw [if_neg hpar]
      split
      · exact Or.inl ⟨_, rfl⟩
      · exact Or.inl ⟨_, rfl⟩

theorem mkdirSwallow_spec (fs : FS) (name : Str) (ok : Bool) :
    (mkdirSwallow fs name ok).1 = fs ∨
    ((mkdirSwallow fs name ok).1 = { fs with dirs := name :: fs.dirs } ∧
      name ≠ [] ∧ ¬ pexists fs name ∧ (mkdirSwallow fs name ok).2 = none) := by
  rcases mkdir_spec fs name with ⟨e, heq⟩ | ⟨h1, h2, heq⟩
  · unfold mkdirSwallow
    simp only [heq]
    left
    split
    · rfl
    · rfl
  · unfold mkdirSwallow
    simp [heq, h1, h2]

theorem mkdirSwallow_ok (fs : FS) (name : Str) (ok : Bool)
    (h1 : name ≠ []) (hpar : parentOk fs name) (h2 : ¬ pexists fs name) :
    mkdirSwallow fs name ok = ({ fs with dirs := name :: fs.dirs }, none) := by
  unfold mkdirSwallow mkdir
  rw [if_neg h1, if_pos hpar, if_neg h2]

theorem makedirsFuel_dirs : ∀ (fuel : Nat) (fs : FS) (name : Str) (ok : Bool),
    (makedirsFuel fuel fs name ok).1.files = fs.files ∧
    ∃ ds, (makedirsFuel fuel fs name ok).1.dirs = ds ++ fs.dirs ∧
      ∀ d ∈ ds, d ≠ [] ∧ d <+: name ∧
        (d = name ∨ d ++ [sep] <+: name ∨ d.head? = some sep) := by
  intro fuel
  induction fuel with
  | zero =>
    intro fs name ok
    exact ⟨rfl, [], rfl, by simp⟩
  | succ fuel ih =>
    intro fs name ok
    by_cases hg : (psplitFix name).1 ≠ [] ∧ (psplitFix name).2 ≠ [] ∧
        ¬ pexists fs (psplitFix name).1
    · rcases hrec : makedirsFuel fuel fs (psplitFix name).1 true with ⟨fs', oe⟩
      obtain ⟨ihf, ds₁, ihd, ihp⟩ := ih fs (psplitFix name).1 true
      simp only [hrec] at ihf ihd
      have hlift : ∀ d ∈ ds₁, d ≠ [] ∧ d <+: name ∧
          (d = name ∨ d ++ [sep] <+: name ∨ d.head? = some sep) := by
        intro d hd
        obtain ⟨hdne, hdpre, hdc⟩ := ihp d hd
        have hHpre : (psplitFix name).1 <+: name := psplitFix_fst_isPre name
        refine ⟨hdne, hdpre.trans hHpre, ?_⟩
        rcases hdc with h1 | h1 | h1
        · rcases psplitFix_fst_sep_or name hg.1 with h2 | h2
          · exact Or.inr (Or.inl (h1 ▸ h2))
          · exact Or.inr (Or.inr (h1 ▸ h2))
        · exact Or.inr (Or.inl (h1.trans hHpre))
        · exact Or.inr (Or.inr h1)
      have hstep : makedirsFuel (fuel + 1) fs name ok =
          (if oe = none ∨ oe = some PyErr.fileExistsError then
            (if (psplitFix name).2 = ['.'] then (fs', none)
             else mkdirSwallow fs' name ok)
           else (fs', oe)) := by
        simp only [makedirsFuel]
        rw [if_pos hg, hrec]
      rw [hstep]
      by_cases ho : oe = none ∨ oe = some PyErr.fileExistsError
      · rw [if_pos ho]
        by_cases hdot : (psplitFix name).2 = ['.']
        · rw [if_pos hdot]
          exact ⟨ihf, ds₁, ihd, hlift⟩
        · rw [if_neg hdot]
          rcases mkdirSwallow_spec fs' name ok with hsp | ⟨hsp, hne, _, _⟩
          · rw [hsp]
            exact ⟨ihf, ds₁, ihd, hlift⟩
          · rw [hsp]
            refine ⟨ihf, name :: ds₁, ?_, ?_⟩
            · simp [ihd]
            · intro d hd
              rcases List.mem_cons.mp hd with h1 | h1
              · subst h1
                exact ⟨hne, List.prefix_rfl, Or.inl rfl⟩
              · exact hlift d h1
      · rw [if_neg ho]
        exact ⟨ihf, ds₁, ihd, hlift⟩
    · have hstep : makedirsFuel (fuel + 1) fs name ok = mkdirSwallow fs name ok := by
        simp only [makedirsFuel]
        rw [if_neg hg]
      rw [hstep]
      rcases mkdirSwallow_spec fs name ok with hsp | ⟨hsp, hne, _, _⟩
      · rw [hsp]
        exact ⟨rfl, [], rfl, by simp⟩
      · rw [hsp]
        refine ⟨rfl, [name], rfl, ?_⟩
        intro d hd
        rcases List.mem_cons.mp hd with h1 | h1
        · subst h1
          exact ⟨hne, List.prefix_rfl, Or.inl rfl⟩
        · simp at h1

theorem not_pexists_after_rec (fuel : Nat) (fs : FS) (hd name : Str)
    (hnex : ¬ pexists fs name) (hlt : hd.length < name.length) :
    ¬ pexists (makedirsFuel fuel fs hd true).1 name := by
  intro hpe
  obtain ⟨hne2, hor⟩ := hpe
  obtain ⟨ihf, ds₁, ihd, ihp⟩ := makedirsFuel_dirs fuel fs hd true
  rcases hor with hdir | hfile
  · rw [ihd] at hdir
    rcases List.mem_append.mp hdir with hin | hin
    · obtain ⟨_, hdpre, _⟩ := ihp name hin
      have hle := hdpre.length_le
      omega
    · exact hnex ⟨hne2, Or.inl hin⟩
  · have hlk : (lookupFile fs name).isSome = true := by
      unfold lookupFile at hfile ⊢
      rw [← ihf]
      exact hfile
    exact hnex ⟨hne2, Or.inr hlk⟩

theorem makedirsFuel_creates_clean : ∀ (fuel : Nat) (fs : FS) (name : Str) (ok : Bool),
    name ≠ [] → name.head? ≠ some sep → ('.' : Char) ∉ name →
    (∀ q, q ++ [sep] <+: name → lookupFile fs q = none) →
    ¬ pexists fs name → name.length < fuel →
    (makedirsFuel fuel fs name ok).2 = none ∧
    ∃ ds, (makedirsFuel fuel fs name ok).1.dirs = ds ++ fs.dirs ∧
      name ∈ ds ∧ List.count name ds = 1 ∧ ∀ d ∈ ds, d <+: name := by
  intro fuel
  induction fuel with
  | zero =>
    intro fs name ok _ _ _ _ _ hf
    omega
  | succ fuel ih =>
    intro fs name ok hne hhead hdot hclean hnex hf
    by_cases hg : (psplitFix name).1 ≠ [] ∧ (psplitFix name).2 ≠ [] ∧
        ¬ pexists fs (psplitFix name).1
    · rcases hrec : makedirsFuel fuel fs (psplitFix name).1 true with ⟨fs', oe⟩
      have hHpre : (psplitFix name).1 <+: name := psplitFix_fst_isPre name
      have hlt : (psplitFix name).1.length < name.length :=
        psplitFix_fst_length_lt name hg.2.1
      have hHhead : (psplitFix name).1.head? ≠ some sep := by
        intro hc
        apply hhead
        rw [head_of_isPre _ name hHpre hg.1]
        exact hc
      have hHdot : ('.' : Char) ∉ (psplitFix name).1 :=
        fun hc => hdot (hHpre.subset hc)
      have hHclean : ∀ q, q ++ [sep] <+: (psplitFix name).1 →
          lookupFile fs q = none :=
        fun q hq => hclean q (hq.trans hHpre)
      obtain ⟨hoe, ds₁, hds₁, hmem₁, hcnt₁, hpre₁⟩ :=
        ih fs (psplitFix name).1 true hg.1 hHhead hHdot hHclean hg.2.2 (by omega)
      simp only [hrec] at hoe hds₁
      have hdotT : (psplitFix name).2 ≠ ['.'] := by
        intro hEq
        have hmem : ('.' : Char) ∈ (psplitFix name).2 := by
          rw [hEq]
          exact List.mem_singleton.mpr rfl
        exact hdot (psplitFix_snd_subset name _ hmem)
      have hstep : makedirsFuel (fuel + 1) fs name ok =
          (if oe = none ∨ oe = some PyErr.fileExistsError then
            (if (psplitFix name).2 = ['.'] then (fs', none)
             else mkdirSwallow fs' name ok)
           else (fs', oe)) := by
        simp only [makedirsFuel]
        rw [if_pos hg, hrec]
      rw [hstep, if_pos (Or.inl hoe), if_neg hdotT]
      have hnex' : ¬ pexists fs' name := by
        have h := not_pexists_after_rec fuel fs (psplitFix name).1 name hnex hlt
        rw [hrec] at h
        exact h
      have hpar : parentOk fs' name := by
        refine Or.inr ⟨hg.1, ?_⟩
        rw [hds₁]
        exact List.mem_append_left _ hmem₁
      rw [mkdirSwallow_ok fs' name ok hne hpar hnex']
      have hnotin : name ∉ ds₁ := by
        intro hin
        have := (hpre₁ name hin).length_le
        omega
      refine ⟨rfl, name :: ds₁, by simp [hds₁], List.mem_cons_self _ _, ?_, ?_⟩
      · rw [List.count_cons_self, List.count_eq_zero.mpr hnotin]
      · intro d hd
        rcases List.mem_cons.mp hd with h1 | h1
        · subst h1
          exact List.prefix_rfl
        · exact (hpre₁ d h1).trans hHpre
    · have hstep : makedirsFuel (fuel + 1) fs name ok = mkdirSwallow fs name ok := by
        simp only [makedirsFuel]
        rw [if_neg hg]
      have hpar : parentOk fs name := by
        by_cases hH : (psplitFix name).1 = []
        · exact Or.inl hH
        · have hHpre : (psplitFix name).1 <+: name := psplitFix_fst_isPre name
          have hHhead : (psplitFix name).1.head? ≠ some sep := by
            intro hc
            apply hhead
            rw [head_of_isPre _ name hHpre hH]
            exact hc
          have hHsep : (psplitFix name).1 ++ [sep] <+: name := by
            rcases psplitFix_fst_sep_or name hH with h | h
            · exact h
            · exact absurd h hHhead
          have hfile := hclean _ hHsep
          have htail := psplitFix_snd_ne_nil name hH hHhead
          have hpe : pexists fs (psplitFix name).1 := by
            by_contra hnpe
            exact hg ⟨hH, htail, hnpe⟩
          rcases hpe.2 with hdirs | hfl
          · exact Or.inr ⟨hH, hdirs⟩
          · rw [hfile] at hfl
            exact absurd hfl (by simp)
      rw [hstep, mkdirSwallow_ok fs name ok hne hpar hnex]
      refine ⟨rfl, [name], rfl, List.mem_singleton.mpr rfl, by simp, ?_⟩
      intro d hd
      rw [List.mem_singleton.mp hd]

theorem makedirs_files (fs : FS) (name : Str) (ok : Bool) :
    (makedirs fs name ok).1.files = fs.files :=
  (makedirsFuel_dirs (name.length + 1) fs name ok).1

theorem makedirs_dirs (fs : FS) (name : Str) (ok : Bool) :
    ∃ ds, (makedirs fs name ok).1.dirs = ds ++ fs.dirs ∧
      ∀ d ∈ ds, d ≠ [] ∧ d <+: name ∧
        (d = name ∨ d ++ [sep] <+: name ∨ d.head? = some sep) :=
  (makedirsFuel_dirs (name.length + 1) fs name ok).2

theorem makedirs_creates_clean (fs : FS) (name : Str) (hne : name ≠ [])
    (hhead : name.head? ≠ some sep) (hdot : ('.' : Char) ∉ name)
    (hclean : ∀ q, q ++ [sep] <+: name → lookupFile fs q = none)
    (hnex : ¬ pexists fs name) :
    (makedirs fs name false).2 = none ∧
    ∃ ds, (makedirs fs name false).1.dirs = ds ++ fs.dirs ∧
      name ∈ ds ∧ List.count name ds = 1 ∧ ∀ d ∈ ds, d <+: name :=
  makedirsFuel_creates_clean (name.length + 1) fs name false hne hhead hdot hclean
    hnex (Nat.lt_succ_self _)

/-! ### C9: `ensure_directory` -/

/-- C9: `ensure_directory(d)` returns `d`; it is a no-op when something
exists at `d`; when `d` is absent it creates it without error, leaving
exactly one directory entry at `d`, and a second call in succession is a
no-op that raises no error.  The hypotheses restrict to a meaningful
directory name on a filesystem where creation can succeed: non-empty, not
absolute, without `.` characters (a `.` path component would engage
`os.makedirs`'s `curdir` special case, which the string model does not
resolve), and with no regular file sitting at an ancestor of `d` — a
blocking file makes the real `os.mkdir` raise `NotADirectoryError`, which
`os.makedirs` propagates. -/
theorem ensure_directory_idempotent (fs : FS) (d : Str)
    (hne : d ≠ []) (hhead : d.head? ≠ some sep) (hdot : ('.' : Char) ∉ d)
    (hcleanA : noFileAncestor fs d) :
    (ensure_directory fs d).2.2 = d ∧
    (pexists fs d → ensure_directory fs d = (fs, none, d)) ∧
    (¬ pexists fs d →
      (ensure_directory fs d).2.1 = none ∧
      d ∈ ((ensure_directory fs d).1).dirs ∧
      List.count d ((ensure_directory fs d).1).dirs = 1 ∧
      ensure_directory ((ensure_directory fs d).1) d =
        ((ensure_directory fs d).1, none, d)) := by
  by_cases hp : pexists fs d
  · have heq : ensure_directory fs d = (fs, none, d) := by
      unfold ensure_directory
      rw [if_pos hp]
    exact ⟨by rw [heq], fun _ => heq, fun hcontra => absurd hp hcontra⟩
  · obtain ⟨hok, ds, hds, hmem, hcount, _⟩ :=
      makedirs_creates_clean fs d hne hhead hdot (noFileAncestor_spec fs d hcleanA) hp
    rcases hmk : makedirs fs d false with ⟨fs', oe⟩
    rw [hmk] at hds hok
    have hoe : oe = none := hok
    subst hoe
    have heq : ensure_directory fs d = (fs', none, d) := by
      unfold ensure_directory
      rw [if_neg hp, hmk]
    have hmem' : d ∈ fs'.dirs := by
      rw [hds]
      exact List.mem_append_left _ hmem
    refine ⟨by rw [heq], fun hcontra => absurd hcontra hp, fun _ => ?_⟩
    refine ⟨by rw [heq], by rw [heq]; exact hmem', ?_, ?_⟩
    · rw [heq]
      show List.count d fs'.dirs = 1
      rw [hds, List.count_append, hcount,
        List.count_eq_zero.mpr (fun hin => hp ⟨hne, Or.inl hin⟩)]
    · rw [heq]
      show ensure_directory fs' d = (fs', none, d)
      unfold ensure_directory
      rw [if_pos ⟨hne, Or.inl hmem'⟩]

/-- Witness for C9: creating `a/b` in an empty filesystem. -/
theorem ensure_directory_idempotent_witness :
    (str "a/b" ≠ [] ∧ (str "a/b").head? ≠ some sep ∧ ('.' : Char) ∉ str "a/b" ∧
     noFileAncestor ⟨[], []⟩ (str "a/b")) ∧
    ((ensure_directory ⟨[], []⟩ (str "a/b")).2.2 = str "a/b" ∧
     (pexists ⟨[], []⟩ (str "a/b") →
       ensure_directory ⟨[], []⟩ (str "a/b") = (⟨[], []⟩, none, str "a/b")) ∧
     (¬ pexists ⟨[], []⟩ (str "a/b") →
       (ensure_directory ⟨[], []⟩ (str "a/b")).2.1 = none ∧
       str "a/b" ∈ ((ensure_directory ⟨[], []⟩ (str "a/b")).1).dirs ∧
       List.count (str "a/b") ((ensure_directory ⟨[], []⟩ (str "a/b")).1).dirs = 1 ∧
       ensure_directory ((ensure_directory ⟨[], []⟩ (str "a/b")).1) (str "a/b") =
         ((ensure_directory ⟨[], []⟩ (str "a/b")).1, none, str "a/b"))) :=
  ⟨⟨by decide, by decide, by decide, by decide⟩,
   ensure_directory_idempotent ⟨[], []⟩ (str "a/b") (by decide) (by decide) (by decide)
     (by decide)⟩

/-! ### Behaviour of `str.replace` when the pattern occurs only in front -/

theorem pyReplaceFuel_no_occurrence : ∀ (fuel : Nat) (s pat rep : Str),
    pat ≠ [] → s.length ≤ fuel →
    (∀ i, i ≤ s.length → ¬ pat <+: s.drop i) →
    pyReplaceFuel pat rep fuel s = s := by
  intro fuel
  induction fuel with
  | zero =>
    intro s pat rep hp hf hno
    cases s with
    | nil => rfl
    | cons c r => simp at hf
  | succ fuel ih =>
    intro s pat rep hp hf hno
    cases s with
    | nil => rfl
    | cons c r =>
      simp only [pyReplaceFuel]
      have hnp : ¬ pat.isPrefixOf (c :: r) = true := by
        rw [prefixOf_bridge]
        have h0 := hno 0 (by omega)
        simpa using h0
      rw [if_neg hnp]
      congr 1
      apply ih r pat rep hp (by simp at hf ⊢; omega)
      intro i hi
      have h1 := hno (i + 1) (by simp; omega)
      simpa using h1

theorem pyReplace_drop (s pat : Str) (hp : pat ≠ [])
    (h : onlyLeadingOccurrence s pat) : pyReplace s pat [] = s.drop pat.length := by
  unfold pyReplace
  rw [if_neg hp]
  obtain ⟨hpre, hno⟩ := h
  obtain ⟨t, ht⟩ := hpre
  cases s with
  | nil =>
    rcases List.append_eq_nil.mp ht with ⟨h1, _⟩
    exact absurd h1 hp
  | cons c r =>
    simp only [List.length_cons, pyReplaceFuel]
    have hpre' : pat.isPrefixOf (c :: r) = true := by
      rw [prefixOf_bridge]
      exact ⟨t, ht⟩
    rw [if_pos hpre']
    simp only [List.nil_append]
    apply pyReplaceFuel_no_occurrence
    · exact hp
    · have hpl : 0 < pat.length := List.length_pos.mpr hp
      simp only [List.length_drop, List.length_cons]
      omega
    · intro i hi
      have hpl : 0 < pat.length := List.length_pos.mpr hp
      have hlen : pat.length ≤ (c :: r).length := by
        have := congrArg List.length ht
        simp only [List.length_append] at this
        omega
      simp only [List.length_drop] at hi
      have h2 := hno (pat.length + i) (by omega) (by omega)
      rw [List.drop_drop]
      exact h2

theorem sourceBase_ne_nil (source : Str) : sourceBase source ≠ [] := by
  unfold sourceBase
  simp

theorem relnameOf_drop (source : Str) (e : Str × Str)
    (h : onlyLeadingOccurrence (fullnameOf e) (sourceBase source)) :
    relnameOf source e = (fullnameOf e).drop (sourceBase source).length := by
  unfold relnameOf
  exact pyReplace_drop _ _ (sourceBase_ne_nil source) h

/-! ### Shape of the destination paths built by `copy_directory` -/

theorem pyJoin_relative (a b : Str) (ha1 : a ≠ []) (ha2 : a.getLast? ≠ some sep)
    (hb : b.head? ≠ some sep) : pyJoin a b = a ++ sep :: b := by
  unfold pyJoin
  rw [if_neg hb, if_neg (fun hor : a = [] ∨ a.getLast? = some sep => hor.elim ha1 ha2)]

theorem pyJoin_head (target r : Str) (ht : wellFormedTarget target)
    (hr : r.head? ≠ some sep) : (pyJoin target r).head? = target.head? := by
  rw [pyJoin_relative target r ht.1 ht.2.2 hr]
  cases target with
  | nil => exact absurd rfl ht.1
  | cons a t => rfl

theorem pyJoin_sep_mem (target r : Str) (ht : wellFormedTarget target)
    (hr : r.head? ≠ some sep) : sep ∈ pyJoin target r := by
  rw [pyJoin_relative target r ht.1 ht.2.2 hr]
  exact List.mem_append_right _ (List.mem_cons_self _ _)

theorem pyJoin_ne_nil (target r : Str) (ht : wellFormedTarget target)
    (hr : r.head? ≠ some sep) : pyJoin target r ≠ [] := by
  rw [pyJoin_relative target r ht.1 ht.2.2 hr]
  cases target with
  | nil => exact absurd rfl ht.1
  | cons a t => simp

theorem pyJoin_getLast (target r : Str) (ht : wellFormedTarget target)
    (hr : wellFormedRel r) : (pyJoin target r).getLast? ≠ some sep := by
  rw [pyJoin_relative target r ht.1 ht.2.2 hr.2.1]
  cases r with
  | nil => exact absurd rfl hr.1
  | cons a l =>
    rw [List.getLast?_append_cons]
    have h2 := List.getLast?_append_cons [sep] a l
    simp only [List.singleton_append] at h2
    rw [h2]
    exact hr.2.2

theorem dirname_isPre (x : Str) : dirname x <+: x := psplit_fst_isPre x

theorem dirname_facts (x : Str) (hhead : x.head? ≠ some sep) (hsep : sep ∈ x) :
    dirname x ≠ [] ∧ dirname x ++ [sep] <+: x := by
  have hD : x.reverse.dropWhile (fun c => ¬ c = sep) ≠ [] := by
    intro hnil
    have hT := List.takeWhile_append_dropWhile (p := fun c => (decide (¬ c = sep)))
      (l := x.reverse)
    rw [hnil, List.append_nil] at hT
    have hsep' : sep ∈ x.reverse := List.mem_reverse.mpr hsep
    rw [← hT] at hsep'
    have hmm := List.mem_takeWhile_imp hsep'
    simp at hmm
  have htk : x.take (splitIdx x) ≠ [] := by
    rw [take_splitIdx_eq]
    simpa using hD
  have hth : (x.take (splitIdx x)).head? = x.head? := by
    cases x with
    | nil => simp at htk
    | cons a t =>
      cases hn : splitIdx (a :: t) with
      | zero => rw [hn] at htk; simp at htk
      | succ n => rfl
  have hnall : ¬ (x.take (splitIdx x)).all (fun c => c = sep) = true := by
    intro hall
    cases hc : (x.take (splitIdx x)) with
    | nil => exact htk hc
    | cons c t =>
      rw [hc] at hall hth
      simp only [List.all_cons, Bool.and_eq_true, decide_eq_true_eq] at hall
      exact hhead (by rw [← hth, hall.1]; rfl)
  have hfst : dirname x = rstripSep (x.take (splitIdx x)) := by
    unfold dirname
    simp only [psplit]
    rw [if_pos ⟨htk, hnall⟩]
  have hne : dirname x ≠ [] := by
    rw [hfst]
    intro hnil
    obtain ⟨k, hk⟩ := rstripSep_spec (x.take (splitIdx x))
    rw [hnil, List.nil_append] at hk
    cases k with
    | zero => rw [hk] at htk; simp at htk
    | succ k' =>
      rw [hk, List.replicate_succ] at hth
      exact hhead (by rw [← hth]; rfl)
  refine ⟨hne, ?_⟩
  rcases psplit_fst_sep_or x hne with h1 | h1
  · exact h1
  · exfalso
    have hh : (dirname x).head? = (x.take (splitIdx x)).head? := by
      rw [hfst]
      obtain ⟨u, hu⟩ := rstripSep_isPre (x.take (splitIdx x))
      obtain ⟨R, hR⟩ : ∃ R, R = rstripSep (x.take (splitIdx x)) := ⟨_, rfl⟩
      rw [← hR] at hu ⊢
      rw [← hu]
      cases hcc : R with
      | nil =>
        exfalso
        apply hne
        rw [hfst, ← hR, hcc]
      | cons c t => rfl
    exact hhead (by rw [← hth, ← hh]; exact h1)

theorem dirname_length_lt (x : Str) (hne : x ≠ []) (hlast : x.getLast? ≠ some sep) :
    (dirname x).length < x.length := by
  have hidx : splitIdx x < x.length := by
    cases hxr : x.reverse with
    | nil =>
      exfalso
      apply hne
      have := congrArg List.reverse hxr
      simpa using this
    | cons c t =>
      have hc : ¬ c = sep := by
        intro hcs
        apply hlast
        rw [← List.head?_reverse, hxr, hcs]
        rfl
      unfold splitIdx
      rw [hxr]
      have h1 : 1 ≤ (List.takeWhile (fun c => decide ¬ c = sep) (c :: t)).length := by
        rw [List.takeWhile_cons, if_pos (by simpa using hc)]
        simp
      have hlen : x.length = t.length + 1 := by
        have := congrArg List.length hxr
        simpa using this
      omega
  have h1 : (dirname x).length ≤ (x.take (splitIdx x)).length := by
    unfold dirname
    simp only [psplit]
    split
    · exact (rstripSep_isPre _).length_le
    · exact le_rfl
  have h2 : (x.take (splitIdx x)).length ≤ splitIdx x := by
    simp [List.length_take]
  omega

/-! ### Behaviour of `ensure_directory_of_file` inside the copy loop -/

theorem ensure_directory_of_file_files (fs : FS) (f : Str) :
    ((ensure_directory_of_file fs f).1).files = fs.files := by
  simp only [ensure_directory_of_file]
  by_cases hp : pexists fs (dirname f)
  · rw [if_pos hp]
  · rw [if_neg hp]
    rcases hmk : makedirs fs (dirname f) false with ⟨fs', oe⟩
    have hfl := makedirs_files fs (dirname f) false
    simp only [hmk] at hfl
    exact hfl

theorem ensure_directory_of_file_dirs (fs : FS) (f : Str) :
    ∃ ds, ((ensure_directory_of_file fs f).1).dirs = ds ++ fs.dirs ∧
      ∀ d ∈ ds, d ≠ [] ∧ d <+: dirname f ∧
        (d = dirname f ∨ d ++ [sep] <+: dirname f ∨ d.head? = some sep) := by
  simp only [ensure_directory_of_file]
  by_cases hp : pexists fs (dirname f)
  · rw [if_pos hp]
    exact ⟨[], rfl, by simp⟩
  · rw [if_neg hp]
    rcases hmk : makedirs fs (dirname f) false with ⟨fs', oe⟩
    obtain ⟨ds, hds, hprop⟩ := makedirs_dirs fs (dirname f) false
    simp only [hmk] at hds
    exact ⟨ds, hds, hprop⟩

theorem ensure_directory_of_file_ok (fs : FS) (f : Str) (h : dirname f ≠ [])
    (hhead : (dirname f).head? ≠ some sep) (hdot : ('.' : Char) ∉ dirname f)
    (hclean : ∀ q, q ++ [sep] <+: dirname f → lookupFile fs q = none)
    (hnofile : lookupFile fs (dirname f) = none) :
    ((ensure_directory_of_file fs f).2).1 = none ∧
    dirname f ∈ ((ensure_directory_of_file fs f).1).dirs := by
  simp only [ensure_directory_of_file]
  by_cases hp : pexists fs (dirname f)
  · rw [if_pos hp]
    refine ⟨rfl, ?_⟩
    rcases hp.2 with hd | hfl
    · exact hd
    · rw [hnofile] at hfl
      exact absurd hfl (by simp)
  · rw [if_neg hp]
    have hcr := makedirs_creates_clean fs (dirname f) h hhead hdot hclean hp
    rcases hmk : makedirs fs (dirname f) false with ⟨fs', oe⟩
    simp only [hmk] at hcr
    obtain ⟨hoe, ds, hds, hmem, _, _⟩ := hcr
    exact ⟨hoe, by rw [hds]; exact List.mem_append_left _ hmem⟩

/-! ### Behaviour of one iteration of `copy_directory`'s loop -/

theorem writeFile_cases (fs : FS) (p c : Str) :
    (writeFile fs p c).1 = fs ∨ (writeFile fs p c).1 = setFile fs p c := by
  unfold writeFile
  split
  · split
    · exact Or.inl rfl
    · split
      · exact Or.inl rfl
      · exact Or.inr rfl
  · split
    · exact Or.inl rfl
    · exact Or.inl rfl

theorem writeFile_ok (fs : FS) (p c : Str) (hpar : parentOk fs p)
    (h1 : p ∉ fs.dirs) (h2 : p ≠ []) :
    writeFile fs p c = (setFile fs p c, none) := by
  unfold writeFile
  rw [if_pos hpar, if_neg h1, if_neg h2]

theorem copyStep_of_err (source target : Str) (acc : CopyAcc) (e : Str × Str)
    (e' : PyErr) (h : acc.err = some e') : copyStep source target acc e = acc := by
  unfold copyStep
  rw [h]

theorem copyStep_frame (source target : Str) (acc : CopyAcc) (e : Str × Str)
    (htarget : wellFormedTarget target)
    (hrel : wellFormedRel (relnameOf source e)) :
    (∀ p, p ≠ tgtnameOf source target e →
      lookupFile (copyStep source target acc e).fs p = lookupFile acc.fs p) ∧
    (∃ ds, (copyStep source target acc e).fs.dirs = ds ++ acc.fs.dirs ∧
      ∀ d ∈ ds, d ≠ [] ∧
        (d ++ [sep] <+: tgtnameOf source target e ∨ d.head? = some sep)) := by
  have htEq : tgtnameOf source target e = pyJoin target (relnameOf source e) := rfl
  have hth : (tgtnameOf source target e).head? ≠ some sep := by
    rw [htEq, pyJoin_head target _ htarget hrel.2.1]
    exact htarget.2.1
  have hmem : sep ∈ tgtnameOf source target e := by
    rw [htEq]
    exact pyJoin_sep_mem target _ htarget hrel.2.1
  have hdn := dirname_facts (tgtnameOf source target e) hth hmem
  have KA : ∀ (fs₁ : FS) (oe : Option PyErr) (dd : Str),
      ensure_directory_of_file acc.fs (tgtnameOf source target e) = (fs₁, oe, dd) →
      (∀ p, p ≠ tgtnameOf source target e →
        lookupFile fs₁ p = lookupFile acc.fs p) ∧
      (∃ ds, fs₁.dirs = ds ++ acc.fs.dirs ∧ ∀ d ∈ ds, d ≠ [] ∧
        (d ++ [sep] <+: tgtnameOf source target e ∨ d.head? = some sep)) := by
    intro fs₁ oe dd heq
    have hfiles := ensure_directory_of_file_files acc.fs (tgtnameOf source target e)
    obtain ⟨ds, hds, hdsp⟩ := ensure_directory_of_file_dirs acc.fs (tgtnameOf source target e)
    simp only [heq] at hfiles hds
    refine ⟨fun p _ => by unfold lookupFile; rw [hfiles], ds, hds, ?_⟩
    intro d hd
    obtain ⟨h1, h2, h3⟩ := hdsp d hd
    have hdnpre := dirname_isPre (tgtnameOf source target e)
    refine ⟨h1, ?_⟩
    rcases h3 with hc | hc | hc
    · exact Or.inl (hc ▸ hdn.2)
    · exact Or.inl (hc.trans hdnpre)
    · exact Or.inr hc
  have KB : ∀ (fs₁ : FS) (oe : Option PyErr) (dd : Str),
      ensure_directory_of_file acc.fs (tgtnameOf source target e) = (fs₁, oe, dd) →
      ∀ c : Str,
      (∀ p, p ≠ tgtnameOf source target e →
        lookupFile (setFile fs₁ (tgtnameOf source target e) c) p = lookupFile acc.fs p) ∧
      (∃ ds, (setFile fs₁ (tgtnameOf source target e) c).dirs = ds ++ acc.fs.dirs ∧
        ∀ d ∈ ds, d ≠ [] ∧
          (d ++ [sep] <+: tgtnameOf source target e ∨ d.head? = some sep)) := by
    intro fs₁ oe dd heq c
    obtain ⟨hfr, ds, hds, hdsp⟩ := KA fs₁ oe dd heq
    refine ⟨?_, ds, ?_, hdsp⟩
    · intro p hp
      rw [lookupFile_setFile_ne _ _ _ _ hp]
      exact hfr p hp
    · rw [setFile_dirs]
      exact hds
  have KW : ∀ (fs₁ : FS) (oe : Option PyErr) (dd : Str),
      ensure_directory_of_file acc.fs (tgtnameOf source target e) = (fs₁, oe, dd) →
      ∀ (c : Str) (fs₂ : FS) (ow : Option PyErr),
      writeFile fs₁ (tgtnameOf source target e) c = (fs₂, ow) →
      (∀ p, p ≠ tgtnameOf source target e →
        lookupFile fs₂ p = lookupFile acc.fs p) ∧
      (∃ ds, fs₂.dirs = ds ++ acc.fs.dirs ∧ ∀ d ∈ ds, d ≠ [] ∧
        (d ++ [sep] <+: tgtnameOf source target e ∨ d.head? = some sep)) := by
    intro fs₁ oe dd heq c fs₂ ow heqW
    have hWc := writeFile_cases fs₁ (tgtnameOf source target e) c
    simp only [heqW] at hWc
    rcases hWc with hc | hc
    · rw [hc]
      exact KA fs₁ oe dd heq
    · rw [hc]
      exact KB fs₁ oe dd heq c
  unfold copyStep
  split
  · exact ⟨fun p _ => rfl, [], rfl, by simp⟩
  · dsimp only
    rw [← htEq]
    split
    next fs₁ er dd heq => exact KA fs₁ (some er) dd heq
    next fs₁ dd heq =>
      split
      · exact KA fs₁ none dd heq
      next contents hR =>
        split
        · split
          next er hRT => exact KA fs₁ none dd heq
          next c' hRT =>
            split
            · exact KA fs₁ none dd heq
            · split
              next fs₂ hW => exact KW fs₁ none dd heq contents fs₂ none hW
              next fs₂ er hW => exact KW fs₁ none dd heq contents fs₂ (some er) hW
        · split
          next fs₂ hW => exact KW fs₁ none dd heq contents fs₂ none hW
          next fs₂ er hW => exact KW fs₁ none dd heq contents fs₂ (some er) hW

theorem copyStep_ok (source target : Str) (acc : CopyAcc) (e : Str × Str) (c : Str)
    (hacc : acc.err = none)
    (htarget : wellFormedTarget target)
    (hrel : wellFormedRel (relnameOf source e))
    (hclean : ∀ q, q ++ [sep] <+: tgtnameOf source target e →
      lookupFile acc.fs q = none)
    (hdotT : ('.' : Char) ∉ tgtnameOf source target e)
    (hread : lookupFile acc.fs (fullnameOf e) = some c)
    (htd : tgtnameOf source target e ∉ acc.fs.dirs) :
    (copyStep source target acc e).err = none ∧
    (copyStep source target acc e).relnames = acc.relnames ++ [relnameOf source e] ∧
    (∀ p, p ≠ tgtnameOf source target e →
      lookupFile (copyStep source target acc e).fs p = lookupFile acc.fs p) ∧
    lookupFile (copyStep source target acc e).fs (tgtnameOf source target e) = some c ∧
    (copyStep source target acc e).writes = acc.writes ++
      (if lookupFile acc.fs (tgtnameOf source target e) = some c then []
       else [(tgtnameOf source target e, c)]) ∧
    (lookupFile acc.fs (tgtnameOf source target e) = some c →
      (copyStep source target acc e).fs.files = acc.fs.files) ∧
    (∃ ds, (copyStep source target acc e).fs.dirs = ds ++ acc.fs.dirs ∧
      ∀ d ∈ ds, d ≠ [] ∧
        (d ++ [sep] <+: tgtnameOf source target e ∨ d.head? = some sep)) ∧
    dirname (tgtnameOf source target e) ∈ (copyStep source target acc e).fs.dirs := by
  have htEq : tgtnameOf source target e = pyJoin target (relnameOf source e) := rfl
  have hth : (tgtnameOf source target e).head? ≠ some sep := by
    rw [htEq, pyJoin_head target _ htarget hrel.2.1]
    exact htarget.2.1
  have hmem : sep ∈ tgtnameOf source target e := by
    rw [htEq]
    exact pyJoin_sep_mem target _ htarget hrel.2.1
  have htne : tgtnameOf source target e ≠ [] := by
    rw [htEq]
    exact pyJoin_ne_nil target _ htarget hrel.2.1
  have htlast : (tgtnameOf source target e).getLast? ≠ some sep := by
    rw [htEq]
    exact pyJoin_getLast target _ htarget hrel
  have hdn := dirname_facts (tgtnameOf source target e) hth hmem
  have hdl := dirname_length_lt (tgtnameOf source target e) htne htlast
  have hdh : (dirname (tgtnameOf source target e)).head? ≠ some sep := by
    intro hc
    apply hth
    rw [head_of_isPre (dirname (tgtnameOf source target e)) _ (dirname_isPre _) hdn.1]
    exact hc
  have hdd : ('.' : Char) ∉ dirname (tgtnameOf source target e) :=
    fun hc => hdotT ((dirname_isPre _).subset hc)
  have hcleanD : ∀ q, q ++ [sep] <+: dirname (tgtnameOf source target e) →
      lookupFile acc.fs q = none :=
    fun q hq => hclean q (hq.trans (dirname_isPre _))
  have hfileD : lookupFile acc.fs (dirname (tgtnameOf source target e)) = none :=
    hclean _ hdn.2
  have hEk := ensure_directory_of_file_ok acc.fs (tgtnameOf source target e) hdn.1
    hdh hdd hcleanD hfileD
  have hEfiles := ensure_directory_of_file_files acc.fs (tgtnameOf source target e)
  obtain ⟨ds, hds, hdsp⟩ := ensure_directory_of_file_dirs acc.fs (tgtnameOf source target e)
  rcases hE : ensure_directory_of_file acc.fs (tgtnameOf source target e) with ⟨fs₁, oe, dd⟩
  simp only [hE] at hEk hEfiles hds
  obtain ⟨hEok, hEdm⟩ := hEk
  subst hEok
  have hdsp' : ∀ d ∈ ds, d ≠ [] ∧
      (d ++ [sep] <+: tgtnameOf source target e ∨ d.head? = some sep) ∧
      d.length < (tgtnameOf source target e).length := by
    intro d hd
    obtain ⟨h1, h2, h3⟩ := hdsp d hd
    have hdnpre := dirname_isPre (tgtnameOf source target e)
    refine ⟨h1, ?_, lt_of_le_of_lt h2.length_le hdl⟩
    rcases h3 with hc | hc | hc
    · exact Or.inl (hc ▸ hdn.2)
    · exact Or.inl (hc.trans hdnpre)
    · exact Or.inr hc
  have htd₁ : tgtnameOf source target e ∉ fs₁.dirs := by
    rw [hds]
    intro hmem2
    rcases List.mem_append.mp hmem2 with hin | hin
    · exact absurd (hdsp' _ hin).2.2 (lt_irrefl _)
    · exact htd hin
  have hl₁ : lookupFile fs₁ (fullnameOf e) = some c := by
    unfold lookupFile
    rw [hEfiles]
    exact hread
  have hR : readFile fs₁ (fullnameOf e) = Except.ok c := by
    unfold readFile
    rw [hl₁]
  have hparW : parentOk fs₁ (tgtnameOf source target e) := by
    unfold parentOk
    rw [parentDir_eq_dirname _ htne htlast]
    exact Or.inr ⟨hdn.1, hEdm⟩
  unfold copyStep
  rw [hacc]
  dsimp only
  rw [← htEq, hE]
  dsimp only
  rw [hR]
  dsimp only
  cases hT : lookupFile acc.fs (tgtnameOf source target e) with
  | some c' =>
    have hT₁ : lookupFile fs₁ (tgtnameOf source target e) = some c' := by
      unfold lookupFile
      rw [hEfiles]
      exact hT
    have hpex : pexists fs₁ (tgtnameOf source target e) :=
      ⟨htne, Or.inr (by rw [hT₁]; rfl)⟩
    have hRT : readFile fs₁ (tgtnameOf source target e) = Except.ok c' := by
      unfold readFile
      rw [hT₁]
    rw [if_pos hpex, hRT]
    dsimp only
    by_cases hcc : c' = c
    · rw [if_pos hcc]
      subst hcc
      refine ⟨rfl, rfl, ?_, ?_, ?_, ?_, ?_, hEdm⟩
      · intro p hp
        show lookupFile fs₁ p = lookupFile acc.fs p
        unfold lookupFile
        rw [hEfiles]
      · exact hT₁
      · simp
      · intro _
        exact hEfiles
      · exact ⟨ds, hds, fun d hd => ⟨(hdsp' d hd).1, (hdsp' d hd).2.1⟩⟩
    · rw [if_neg hcc, writeFile_ok fs₁ (tgtnameOf source target e) c hparW htd₁ htne]
      dsimp only
      refine ⟨rfl, rfl, ?_, ?_, ?_, ?_, ?_, ?_⟩
      · intro p hp
        show lookupFile (setFile fs₁ (tgtnameOf source target e) c) p = lookupFile acc.fs p
        rw [lookupFile_setFile_ne _ _ _ _ hp]
        unfold lookupFile
        rw [hEfiles]
      · exact lookupFile_setFile_self fs₁ _ c
      · have hne2 : ¬ ((some c' : Option Str) = some c) := fun h => hcc (Option.some.inj h)
        rw [if_neg hne2]
      · intro habs
        exact absurd (Option.some.inj habs) hcc
      · refine ⟨ds, ?_, fun d hd => ⟨(hdsp' d hd).1, (hdsp' d hd).2.1⟩⟩
        rw [setFile_dirs]
        exact hds
      · show dirname (tgtnameOf source target e) ∈ (setFile fs₁ _ c).dirs
        rw [setFile_dirs]
        exact hEdm
  | none =>
    have hT₁ : lookupFile fs₁ (tgtnameOf source target e) = none := by
      unfold lookupFile
      rw [hEfiles]
      exact hT
    have hnpex : ¬ pexists fs₁ (tgtnameOf source target e) := by
      intro hpe
      rcases hpe.2 with hdir | hfile
      · exact htd₁ hdir
      · rw [hT₁] at hfile
        simp at hfile
    rw [if_neg hnpex, writeFile_ok fs₁ (tgtnameOf source target e) c hparW htd₁ htne]
    dsimp only
    refine ⟨rfl, rfl, ?_, ?_, ?_, ?_, ?_, ?_⟩
    · intro p hp
      show lookupFile (setFile fs₁ (tgtnameOf source target e) c) p = lookupFile acc.fs p
      rw [lookupFile_setFile_ne _ _ _ _ hp]
      unfold lookupFile
      rw [hEfiles]
    · exact lookupFile_setFile_self fs₁ _ c
    · rw [if_neg (show ¬ ((none : Option Str) = some c) by simp)]
    · intro habs
      simp at habs
    · refine ⟨ds, ?_, fun d hd => ⟨(hdsp' d hd).1, (hdsp' d hd).2.1⟩⟩
      rw [setFile_dirs]
      exact hds
    · show dirname (tgtnameOf source target e) ∈ (setFile fs₁ _ c).dirs
      rw [setFile_dirs]
      exact hEdm

theorem copyFold_of_err (source target : Str) :
    ∀ (ws : List (Str × Str)) (acc : CopyAcc) (er : PyErr),
    acc.err = some er → ws.foldl (copyStep source target) acc = acc := by
  intro ws
  induction ws with
  | nil => intro acc er _; rfl
  | cons e rest ih =>
    intro acc er h
    rw [List.foldl_cons, copyStep_of_err source target acc e er h]
    exact ih acc er h

theorem copyStep_err_none_of (source target : Str) (acc : CopyAcc) (e : Str × Str)
    (h : (copyStep source target acc e).err = none) : acc.err = none := by
  cases hc : acc.err with
  | none => rfl
  | some er =>
    rw [copyStep_of_err source target acc e er hc] at h
    rw [hc] at h
    exact h

theorem copyStep_relnames_append (source target : Str) (acc : CopyAcc) (e : Str × Str)
    (hacc : acc.err = none) :
    (copyStep source target acc e).relnames = acc.relnames ++ [relnameOf source e] := by
  unfold copyStep
  rw [hacc]
  dsimp only
  split
  · rfl
  · split
    · rfl
    · split
      · split
        · rfl
        · split
          · rfl
          · split
            · rfl
            · rfl
      · split
        · rfl
        · rfl

/-- When a run of the loop finishes with no exception, the returned
`relnames` list is the relative name of every walked file, in traversal
order. -/
theorem copyFold_relnames (source target : Str) :
    ∀ (ws : List (Str × Str)) (acc : CopyAcc),
    (ws.foldl (copyStep source target) acc).err = none →
    (ws.foldl (copyStep source target) acc).relnames =
      acc.relnames ++ ws.map (relnameOf source) := by
  intro ws
  induction ws with
  | nil => intro acc _; simp
  | cons e rest ih =>
    intro acc hend
    rw [List.foldl_cons] at hend ⊢
    have hA : (copyStep source target acc e).err = none := by
      cases hc : (copyStep source target acc e).err with
      | none => rfl
      | some er =>
        rw [copyFold_of_err source target rest _ er hc, hc] at hend
        exact Option.noConfusion hend
    have hacc := copyStep_err_none_of source target acc e hA
    rw [ih _ hend, copyStep_relnames_append source target acc e hacc,
      List.append_assoc]
    rfl

theorem sourceBase_head (source : Str)
    (hsrc : (sourceBase source).head? ≠ some sep) :
    (normpath source).head? ≠ some sep ∧ normpath source ≠ [] := by
  have hb : sourceBase source = normpath source ++ [sep] := rfl
  constructor
  · intro h
    apply hsrc
    rw [hb]
    cases hn : normpath source with
    | nil =>
      rw [hn] at h
      exact absurd h (by simp)
    | cons a l =>
      rw [hn] at h
      rw [List.cons_append]
      exact h
  · intro h
    apply hsrc
    rw [hb, h]
    rfl

/-- Frame property of a whole run of the copy loop: it only touches files
at destination paths and only creates directories that are prefixes of a
destination path (or descend from an absolute path). -/
theorem copyFold_frame (source target : Str) (htarget : wellFormedTarget target) :
    ∀ (ws : List (Str × Str)) (acc : CopyAcc),
    (∀ e ∈ ws, wellFormedRel (relnameOf source e)) →
    (∀ p, (∀ e ∈ ws, p ≠ tgtnameOf source target e) →
      lookupFile (ws.foldl (copyStep source target) acc).fs p = lookupFile acc.fs p) ∧
    (∃ ds, (ws.foldl (copyStep source target) acc).fs.dirs = ds ++ acc.fs.dirs ∧
      ∀ d ∈ ds, d ≠ [] ∧
        ((∃ e ∈ ws, d ++ [sep] <+: tgtnameOf source target e) ∨
         d.head? = some sep)) := by
  intro ws
  induction ws with
  | nil =>
    intro acc _
    exact ⟨fun p _ => rfl, [], rfl, by simp⟩
  | cons e rest ih =>
    intro acc hrels
    obtain ⟨hfr, ds₀, hds₀, hds₀p⟩ :=
      copyStep_frame source target acc e htarget (hrels e (List.mem_cons_self e rest))
    obtain ⟨hfrR, dsR, hdsR, hdsRp⟩ :=
      ih (copyStep source target acc e)
        (fun b hb => hrels b (List.mem_cons_of_mem e hb))
    rw [List.foldl_cons]
    refine ⟨?_, dsR ++ ds₀, ?_, ?_⟩
    · intro p hp
      rw [hfrR p (fun b hb => hp b (List.mem_cons_of_mem e hb))]
      exact hfr p (hp e (List.mem_cons_self e rest))
    · rw [hdsR, hds₀, List.append_assoc]
    · intro d hd
      rcases List.mem_append.mp hd with hin | hin
      · obtain ⟨h1, h2⟩ := hdsRp d hin
        refine ⟨h1, ?_⟩
        rcases h2 with ⟨b, hb, hpre⟩ | hsepHead
        · exact Or.inl ⟨b, List.mem_cons_of_mem e hb, hpre⟩
        · exact Or.inr hsepHead
      · obtain ⟨h1, h2⟩ := hds₀p d hin
        refine ⟨h1, ?_⟩
        rcases h2 with hpre | hsepHead
        · exact Or.inl ⟨e, List.mem_cons_self e rest, hpre⟩
        · exact Or.inr hsepHead

/-- C6: for every file processed by `copy_directory` (readable source
file, destination path not an existing directory and not blocked by a
regular file at an ancestor): if a file already exists at the destination
path with content identical to the source file's, nothing is written and
the filesystem's files are unchanged by that step; otherwise the source
content is written to the destination path, overwriting any existing file
there, and no other path is affected. -/
theorem copy_directory_content_equality_step (source target : Str) (acc : CopyAcc)
    (e : Str × Str) (c : Str)
    (hacc : acc.err = none)
    (htarget : wellFormedTarget target)
    (hrel : wellFormedRel (relnameOf source e))
    (hcleanT : noFileAncestor acc.fs (tgtnameOf source target e))
    (hdotT : ('.' : Char) ∉ tgtnameOf source target e)
    (hread : lookupFile acc.fs (fullnameOf e) = some c)
    (htd : tgtnameOf source target e ∉ acc.fs.dirs) :
    (lookupFile acc.fs (tgtnameOf source target e) = some c →
      (copyStep source target acc e).writes = acc.writes ∧
      (copyStep source target acc e).fs.files = acc.fs.files) ∧
    (lookupFile acc.fs (tgtnameOf source target e) ≠ some c →
      (copyStep source target acc e).writes =
        acc.writes ++ [(tgtnameOf source target e, c)] ∧
      lookupFile (copyStep source target acc e).fs
        (tgtnameOf source target e) = some c ∧
      (∀ p, p ≠ tgtnameOf source target e →
        lookupFile (copyStep source target acc e).fs p = lookupFile acc.fs p)) := by
  obtain ⟨_, _, hfr, htgt, hwr, hfe, _, _⟩ :=
    copyStep_ok source target acc e c hacc htarget hrel
      (noFileAncestor_spec acc.fs (tgtnameOf source target e) hcleanT) hdotT hread htd
  constructor
  · intro hs
    refine ⟨?_, hfe hs⟩
    rw [hwr, if_pos hs, List.append_nil]
  · intro hs
    refine ⟨?_, htgt, hfr⟩
    rw [hwr, if_neg hs]

theorem copy_directory_content_equality_step_witness :
    (copyStep (str "s") (str "t")
        ⟨⟨[(str "s/a", str "x"), (str "t/a", str "z")], [str "s", str "t"]⟩, [], [], none⟩
        (str "s", str "a")).writes =
      [(tgtnameOf (str "s") (str "t") (str "s", str "a"), str "x")] ∧
    lookupFile (copyStep (str "s") (str "t")
        ⟨⟨[(str "s/a", str "x"), (str "t/a", str "z")], [str "s", str "t"]⟩, [], [], none⟩
        (str "s", str "a")).fs (tgtnameOf (str "s") (str "t") (str "s", str "a")) =
      some (str "x") :=
  ⟨((copy_directory_content_equality_step (str "s") (str "t")
      ⟨⟨[(str "s/a", str "x"), (str "t/a", str "z")], [str "s", str "t"]⟩, [], [], none⟩
      (str "s", str "a") (str "x") (by decide) (by decide) (by decide) (by decide)
      (by decide) (by decide) (by decide)).2 (by decide)).1,
   ((copy_directory_content_equality_step (str "s") (str "t")
      ⟨⟨[(str "s/a", str "x"), (str "t/a", str "z")], [str "s", str "t"]⟩, [], [], none⟩
      (str "s", str "a") (str "x") (by decide) (by decide) (by decide) (by decide)
      (by decide) (by decide) (by decide)).2 (by decide)).2.1⟩

/-- C2 (counterexample): copying a tree that contains a subdirectory whose
name repeats the source directory's name. `str.replace` removes every
occurrence of `sourcebase`, not just the leading one, so the recorded
entry for the file `d/d/f` is `f` instead of `d/f`: joining the source
with the returned entry does not give back the file's path. -/
theorem copy_directory_relative_path_cex :
    (copy_directory ⟨[(str "d/d/f", str "x")], [str "d", str "d/d"]⟩
        [(str "d/d", str "f")] (str "d") (str "out")).err = none ∧
    (copy_directory ⟨[(str "d/d/f", str "x")], [str "d", str "d/d"]⟩
        [(str "d/d", str "f")] (str "d") (str "out")).relnames = [str "f"] ∧
    pyJoin (str "d") (relnameOf (str "d") (str "d/d", str "f")) ≠
      fullnameOf (str "d/d", str "f") := by
  decide

/-- C2 (amended): when the run raises no exception and `sourcebase` occurs
in each walked file's normalized path only as its leading prefix (and the
resulting relative names do not start with a separator), the returned list
is exactly the relative name of every walked file in traversal order, and
joining the normalized source back onto such a relative name recovers the
file's path. -/
theorem copy_directory_relative_paths (fs : FS) (walk : List (Str × Str))
    (source target : Str)
    (herr : (copy_directory fs walk source target).err = none)
    (hsrc1 : normpath source ≠ [])
    (hsrc2 : (normpath source).getLast? ≠ some sep)
    (honce : ∀ e ∈ walk, onlyLeadingOccurrence (fullnameOf e) (sourceBase source))
    (hrels : ∀ e ∈ walk, (relnameOf source e).head? ≠ some sep) :
    (copy_directory fs walk source target).relnames =
      walk.map (relnameOf source) ∧
    ∀ e ∈ walk,
      sourceBase source ++ relnameOf source e = fullnameOf e ∧
      pyJoin (normpath source) (relnameOf source e) = fullnameOf e := by
  unfold copy_directory at herr ⊢
  constructor
  · rw [copyFold_relnames source target walk ⟨fs, [], [], none⟩ herr]
    rfl
  · intro e he
    have hfe := relnameOf_drop source e (honce e he)
    obtain ⟨t, ht⟩ := (honce e he).1
    have h1 : relnameOf source e = t := by
      rw [hfe, ← ht, List.drop_left]
    have h2 : sourceBase source ++ relnameOf source e = fullnameOf e := by
      rw [h1, ht]
    refine ⟨h2, ?_⟩
    rw [pyJoin_relative (normpath source) _ hsrc1 hsrc2 (hrels e he), ← h2]
    show normpath source ++ sep :: relnameOf source e =
      (normpath source ++ [sep]) ++ relnameOf source e
    simp

theorem copy_directory_relative_paths_witness :
    (copy_directory ⟨[(str "s/a", str "x")], [str "s"]⟩ [(str "s", str "a")]
        (str "s") (str "t")).relnames =
      [(str "s", str "a")].map (relnameOf (str "s")) ∧
    sourceBase (str "s") ++ relnameOf (str "s") (str "s", str "a") =
      fullnameOf (str "s", str "a") ∧
    pyJoin (normpath (str "s")) (relnameOf (str "s") (str "s", str "a")) =
      fullnameOf (str "s", str "a") :=
  ⟨(copy_directory_relative_paths ⟨[(str "s/a", str "x")], [str "s"]⟩
      [(str "s", str "a")] (str "s") (str "t") (by decide) (by decide) (by decide)
      (by decide) (by decide)).1,
   ((copy_directory_relative_paths ⟨[(str "s/a", str "x")], [str "s"]⟩
      [(str "s", str "a")] (str "s") (str "t") (by decide) (by decide) (by decide)
      (by decide) (by decide)).2 (str "s", str "a") (by decide)).1,
   ((copy_directory_relative_paths ⟨[(str "s/a", str "x")], [str "s"]⟩
      [(str "s", str "a")] (str "s") (str "t") (by decide) (by decide) (by decide)
      (by decide) (by decide)).2 (str "s", str "a") (by decide)).2⟩

/-- C8 (counterexample): with target `s/t` inside source `s`, copying the
walked file `s/f` overwrites the file `s/t/f`, which lies under the source:
its content changes from `"y"` to `"x"`, so `copy_directory` does modify
files under `source` when the target overlaps it. -/
theorem copy_directory_source_untouched_cex :
    underSource (str "s") (str "s/t/f") ∧
    lookupFile
      (⟨[(str "s/f", str "x"), (str "s/t/f", str "y")], [str "s", str "s/t"]⟩ : FS)
      (str "s/t/f") = some (str "y") ∧
    lookupFile (copy_directory
        ⟨[(str "s/f", str "x"), (str "s/t/f", str "y")], [str "s", str "s/t"]⟩
        [(str "s", str "f"), (str "s/t", str "f")] (str "s") (str "s/t")).fs
      (str "s/t/f") = some (str "x") := by
  decide

/-- C8 (amended): when no destination path lies under the source subtree
(in particular the target does not overlap the source) and the relative
names are well formed, a run of `copy_directory` leaves every path under
the source untouched: its file content is unchanged and it is a directory
afterwards exactly when it was before. -/
theorem copy_directory_source_untouched (fs : FS) (walk : List (Str × Str))
    (source target : Str)
    (htarget : wellFormedTarget target)
    (hrels : ∀ e ∈ walk, wellFormedRel (relnameOf source e))
    (hsrc : (sourceBase source).head? ≠ some sep)
    (hout : ∀ e ∈ walk, ¬ underSource source (tgtnameOf source target e))
    (p : Str) (hp : underSource source p) :
    lookupFile (copy_directory fs walk source target).fs p = lookupFile fs p ∧
    (p ∈ (copy_directory fs walk source target).fs.dirs ↔ p ∈ fs.dirs) := by
  unfold copy_directory
  obtain ⟨hfr, ds, hds, hdsp⟩ :=
    copyFold_frame source target htarget walk ⟨fs, [], [], none⟩ hrels
  have hpn : ∀ e ∈ walk, p ≠ tgtnameOf source target e := by
    intro e he heq
    exact hout e he (heq ▸ hp)
  constructor
  · exact hfr p hpn
  · rw [hds]
    show p ∈ ds ++ fs.dirs ↔ p ∈ fs.dirs
    constructor
    · intro hmem
      rcases List.mem_append.mp hmem with hin | hin
      · exfalso
        obtain ⟨hne, hcase⟩ := hdsp p hin
        rcases hcase with ⟨e, he, hpre⟩ | hhd
        · apply hout e he
          rcases hp with hps | hps
          · exact Or.inl (hps.trans ((List.prefix_append p [sep]).trans hpre))
          · refine Or.inl ?_
            have hq : sourceBase source = p ++ [sep] := by
              rw [hps]
              rfl
            rw [hq]
            exact hpre
        · rcases hp with hps | hps
          · apply hsrc
            rw [← head_of_isPre (sourceBase source) p hps (sourceBase_ne_nil source)]
            exact hhd
          · obtain ⟨hh1, _⟩ := sourceBase_head source hsrc
            rw [hps] at hhd
            exact hh1 hhd
      · exact hin
    · intro hmem
      exact List.mem_append.mpr (Or.inr hmem)

theorem copy_directory_source_untouched_witness :
    lookupFile (copy_directory ⟨[(str "s/a", str "x")], [str "s"]⟩
        [(str "s", str "a")] (str "s") (str "t")).fs (str "s/a") =
      lookupFile ⟨[(str "s/a", str "x")], [str "s"]⟩ (str "s/a") ∧
    (str "s/a" ∈ (copy_directory ⟨[(str "s/a", str "x")], [str "s"]⟩
        [(str "s", str "a")] (str "s") (str "t")).fs.dirs ↔
      str "s/a" ∈ (⟨[(str "s/a", str "x")], [str "s"]⟩ : FS).dirs) :=
  copy_directory_source_untouched ⟨[(str "s/a", str "x")], [str "s"]⟩
    [(str "s", str "a")] (str "s") (str "t")
    (by decide) (by decide) (by decide) (by decide) (str "s/a") (by decide)

end FileTools
